import Mathlib

/-!
# Verification of the yacd make-log parser and compilation-database generator

This file embeds the core of the `yacd` repository (a Go program that turns
`make` build logs into `compile_commands.json`) as executable Lean functions,
and proves/refutes the frozen specification claims about it.

Embedded components (translated from the Go source):
* `utils/pathutil` — path predicates, `filepath.Clean`/`Join` (Unix rules),
  source-file extension detection (`pathutil.go`).
* `parser` — the make-log line interpreter: directory-marker regexes,
  shell-chain (`cd dir && …`) handling, redirection/backtick stripping,
  command-line tokenization, and source/output extraction (`parser.go`).
* `generator` — database validation and JSON serialization
  (`generator.go` / `compiledb.go`), plus a JSON parser standing in for
  Go's `encoding/json.Unmarshal` at type `CompilationDatabase`.

Strings are modelled as Lean `String`/`List Char`; the Go code indexes
strings by byte, which agrees with our rune-level model on the ASCII inputs
the parser deals with (the regexes and separators involved are all ASCII).
-/

namespace Yacd

/-! ## Character classes

Go distinguishes two whitespace notions that both appear in the parser:
`unicode.IsSpace` (used by `strings.TrimSpace` and `strings.Fields`) and the
RE2 Perl class `\s = [\t\n\f\r ]` (used inside the regex patterns). -/

/-- Whitespace per Go `unicode.IsSpace`: in Latin-1, `\t \n \v \f \r ' '`
    plus U+0085 and U+00A0; beyond Latin-1, the `unicode.White_Space` table
    U+1680, U+2000–U+200A, U+2028, U+2029, U+202F, U+205F, U+3000. -/
def isUnicodeSpace (c : Char) : Bool :=
  c == ' ' || c == '\t' || c == '\n' || c == '\x0b' || c == '\x0c' ||
  c == '\r' || c == '\x85' || c == '\xa0' ||
  c == '\u1680' || ('\u2000' ≤ c && c ≤ '\u200a') ||
  c == '\u2028' || c == '\u2029' || c == '\u202f' || c == '\u205f' ||
  c == '\u3000'

/-- Whitespace per the RE2 character class `\s`, i.e. `[\t\n\f\r ]`. -/
def isRegexSpace (c : Char) : Bool :=
  c == '\t' || c == '\n' || c == '\x0c' || c == '\r' || c == ' '

/-- ASCII decimal digit (RE2 `\d`). -/
def isAsciiDigitCh (c : Char) : Bool :=
  '0' ≤ c && c ≤ '9'

/-- ASCII alphanumeric test written out in `processBacktickSubstitution`
    (`a-z`, `A-Z`, `0-9`). -/
def isAsciiAlnum (c : Char) : Bool :=
  let n := c.toNat
  (97 ≤ n && n ≤ 122) || (65 ≤ n && n ≤ 90) || (48 ≤ n && n ≤ 57)

/-- ASCII lower-casing, as `strings.ToLower` acts on the ASCII range (the
    only range that can produce one of the recognized source extensions). -/
def asciiLowerC (c : Char) : Char :=
  if 'A' ≤ c && c ≤ 'Z' then Char.ofNat (c.toNat + 32) else c

/-! ## Generic list/string helpers (Go `strings` package operations) -/

/-- `strings.TrimSpace` on a character list. -/
def trimSpaceL (l : List Char) : List Char :=
  ((l.dropWhile isUnicodeSpace).reverse.dropWhile isUnicodeSpace).reverse

/-- `strings.TrimSpace`. -/
def trimSpace (s : String) : String :=
  String.mk (trimSpaceL s.toList)

/-- Worker for `fieldsL`: `cur` holds the characters of the current word in
    reverse. -/
def fieldsAux : List Char → List Char → List (List Char)
  | [], cur => if cur.isEmpty then [] else [cur.reverse]
  | c :: cs, cur =>
    if isUnicodeSpace c then
      if cur.isEmpty then fieldsAux cs [] else cur.reverse :: fieldsAux cs []
    else fieldsAux cs (c :: cur)

/-- `strings.Fields`: split around runs of `unicode.IsSpace` characters. -/
def fieldsL (l : List Char) : List (List Char) :=
  fieldsAux l []

/-- Does `needle` occur as a contiguous sublist of `hay`?
    (Go `strings.Contains` / an unanchored regex literal match.) -/
def containsSub (needle : List Char) : List Char → Bool
  | [] => needle.isPrefixOf []
  | c :: cs => needle.isPrefixOf (c :: cs) || containsSub needle cs

/-- Index of the first occurrence of `needle` in `hay` (Go `strings.Index`). -/
def indexOfSub (needle : List Char) : List Char → Option Nat
  | [] => if needle.isEmpty then some 0 else none
  | c :: cs =>
    if needle.isPrefixOf (c :: cs) then some 0
    else (indexOfSub needle cs).map (· + 1)

/-- Replace the first occurrence of `pat` in `l` by `repl`
    (Go `strings.Replace(s, old, new, 1)` for non-empty `old`). -/
def replaceFirstSub (l pat repl : List Char) : List Char :=
  match indexOfSub pat l with
  | some i => l.take i ++ repl ++ l.drop (i + pat.length)
  | none => l

/-- Strip an exact prefix, returning the remainder. -/
def stripPrefixL (pre l : List Char) : Option (List Char) :=
  match pre, l with
  | [], l => some l
  | _ :: _, [] => none
  | p :: ps, c :: cs => if p == c then stripPrefixL ps cs else none

/-! ## `utils/pathutil` (Unix host: the path separator is `/`) -/

/-- `pathutil.IsAbsolutePath`: `filepath.IsAbs` (on Unix: leading `/`),
    or a leading `/`, or a leading `\` (Windows-style). -/
def isAbsolutePath (s : String) : Bool :=
  match s.toList with
  | '/' :: _ => true
  | '\\' :: _ => true
  | _ => false

/-- One step of `path.Clean`'s element processing: Go's lazybuf algorithm is
    equivalent to processing the `/`-separated segments against a stack
    (`..` pops a previous real segment; on a relative path unmatched `..`
    segments accumulate; on a rooted path they are dropped at the root). -/
def cleanSegStep (rooted : Bool) (stack : List (List Char)) (seg : List Char) :
    List (List Char) :=
  if seg.isEmpty || seg = ['.'] then stack
  else if seg = ['.', '.'] then
    match stack with
    | [] => if rooted then [] else [seg]
    | top :: rest => if top = ['.', '.'] then seg :: top :: rest else rest
  else seg :: stack

/-- Split a character list at every occurrence of `sep`. -/
def splitOnCh (sep : Char) : List Char → List (List Char)
  | [] => [[]]
  | c :: cs =>
    if c == sep then [] :: splitOnCh sep cs
    else
      match splitOnCh sep cs with
      | [] => [[c]]
      | w :: ws => (c :: w) :: ws

/-- `path.Clean` (= `filepath.Clean` on Unix). -/
def cleanPathL (l : List Char) : List Char :=
  if l.isEmpty then ['.']
  else
    let rooted := l.headD ' ' == '/'
    let segs := splitOnCh '/' l
    let stack := segs.foldl (cleanSegStep rooted) []
    let body := List.intercalate ['/'] stack.reverse
    if rooted then '/' :: body
    else if body.isEmpty then ['.'] else body

/-- `filepath.Clean`. -/
def cleanPath (s : String) : String :=
  String.mk (cleanPathL s.toList)

/-- `filepath.Join` of two elements: empty elements are dropped, the rest are
    joined with `/` and the result is cleaned; all-empty input gives `""`. -/
def joinPath2 (a b : String) : String :=
  if a = "" && b = "" then ""
  else if a = "" then cleanPath b
  else if b = "" then cleanPath a
  else cleanPath (String.mk (a.toList ++ '/' :: b.toList))

/-- `pathutil.ResolveRelativePath`: absolute paths pass through unchanged,
    relative ones are joined onto the base directory. -/
def resolveRelativePath (baseDir relativePath : String) : String :=
  if isAbsolutePath relativePath then relativePath
  else joinPath2 baseDir relativePath

/-- `filepath.Ext`: the suffix starting at the final dot in the final
    path element; empty if that element has no dot. -/
def filepathExtL (l : List Char) : List Char :=
  go l.reverse []
where
  /-- Scan the reversed path; `acc` re-accumulates the scanned suffix in
      original order. Stop empty at a `/`; a `.` found first marks the
      extension. -/
  go : List Char → List Char → List Char
    | [], _ => []
    | c :: cs, acc =>
      if c == '/' then []
      else if c == '.' then '.' :: acc
      else go cs (c :: acc)

/-- `pathutil.IsSourceFile`: the lower-cased `filepath.Ext` of the name is one
    of the recognized source extensions. (`.S` in the Go list is unreachable
    after lower-casing but kept for fidelity.) -/
def sourceExts : List String :=
  [".c", ".cpp", ".cc", ".cxx", ".c++", ".s", ".S", ".asm"]

def isSourceFileL (l : List Char) : Bool :=
  let ext := String.mk ((filepathExtL l).map asciiLowerC)
  sourceExts.any (fun validExt => ext == validExt)

def isSourceFile (s : String) : Bool :=
  isSourceFileL s.toList

/-! ## `types` package -/

/-- `types.ParseOptions`. -/
structure ParseOptions where
  InputFile : String := ""
  OutputFile : String := ""
  MakeCommand : String := ""
  UseRelativePaths : Bool := false
  BaseDir : String := ""
  Verbose : Bool := false
deriving Repr, DecidableEq

/-- `types.MakeLogEntry`: one compilation record recovered from the log. -/
structure MakeLogEntry where
  WorkingDir : String
  Compiler : String
  Args : List String
  SourceFile : String
  OutputFile : String
deriving Repr, DecidableEq

/-- `types.CompilationEntry`: one on-disk `compile_commands.json` entry. -/
structure CompilationEntry where
  Directory : String := ""
  Command : String := ""
  Arguments : List String := []
  File : String := ""
  Output : String := ""
deriving Repr, DecidableEq

/-! ## `parser` package: directory markers

The patterns `^make(\[\d+\])?: Entering directory '(.+)'` and the `Leaving`
twin are anchored; `(.+)` is greedy and cannot cross a newline, so the
captured group runs to the last `'` inside the newline-free prefix. -/

/-- Consume one or more ASCII digits (`\d+`), returning the remainder. -/
def stripDigits1 (l : List Char) : Option (List Char) :=
  let ds := l.takeWhile isAsciiDigitCh
  if ds.isEmpty then none else some (l.drop ds.length)

/-- Consume `make` and the optional recursion tag `[\d+]`. A `[` that is not
    a complete `[\d+]` also kills the optionless alternative, because the
    following literal `:` cannot match at the `[`. -/
def stripMakeTag (l : List Char) : Option (List Char) := do
  let r ← stripPrefixL "make".toList l
  match r with
  | '[' :: r1 =>
    match stripDigits1 r1 with
    | some (']' :: r3) => some r3
    | _ => none
  | _ => some r

/-- The capture of the trailing `(.+)'`: the longest newline-free prefix of
    `r` (of length at least 1) that is followed by a `'`. -/
def lastQuoteCapture (r : List Char) : Option (List Char) :=
  let pre := r.takeWhile (fun c => c ≠ '\n')
  go pre
where
  /-- Longest prefix of the newline-free region ending right before a `'`. -/
  go : List Char → Option (List Char)
    | [] => none
    | c :: cs =>
      match go cs with
      | some cap => some (c :: cap)
      | none => if cs.headD ' ' == '\'' && cs ≠ [] then some [c] else none

/-- `FindStringSubmatch` of a directory-marker pattern: `keyword` is
    `"Entering"` or `"Leaving"`; the result is capture group 2 (the path). -/
def matchMakeDir (keyword : String) (l : List Char) : Option (List Char) := do
  let r ← stripMakeTag l
  let r2 ← stripPrefixL (": " ++ keyword ++ " directory '").toList r
  lastQuoteCapture r2

def matchDirEnter (line : String) : Option String :=
  (matchMakeDir "Entering" line.toList).map String.mk

def matchDirLeave (line : String) : Option String :=
  (matchMakeDir "Leaving" line.toList).map String.mk

/-- The mutable parser state of `parser.Parser` (regexes are fixed, options
    are read-only; only these two fields evolve). The stack top is the last
    list element, matching Go's `append`/truncate usage. -/
structure ParserState where
  dirStack : List String
  directoryHistory : List String
deriving Repr, DecidableEq

/-- `Parser.handleDirectoryChange`: returns whether the line was consumed as
    a directory marker, together with the updated state. -/
def handleDirectoryChange (st : ParserState) (line : String) : Bool × ParserState :=
  match matchDirEnter line with
  | some dir =>
    (true, ⟨st.dirStack ++ [dir], st.directoryHistory ++ [dir]⟩)
  | none =>
    match matchDirLeave line with
    | some _ =>
      (true, ⟨st.dirStack.dropLast, st.directoryHistory⟩)
    | none => (false, st)

/-! ## `parser` package: compiler detection and tokenization -/

/-- `MatchString` of the compiler pattern `(gcc|g\+\+|clang|clang\+\+|cc)`:
    an unanchored substring match of any alternative. -/
def compilerMatchL (l : List Char) : Bool :=
  containsSub "gcc".toList l || containsSub "g++".toList l ||
  containsSub "clang".toList l || containsSub "clang++".toList l ||
  containsSub "cc".toList l

/-- UTF-8 byte width of a code point: how far the byte index `i` of Go's
    `for i, char := range line` advances past this rune. -/
def utf8Width (c : Char) : Nat :=
  if c.toNat < 128 then 1
  else if c.toNat < 2048 then 2
  else if c.toNat < 65536 then 3
  else 4

/-- Worker for `splitCommandLine`: `cur` is the current token reversed and
    `w` is the UTF-8 byte width of the previously processed rune (0 before
    the first). The Go loop's end-of-line check `i == len(line)-1` compares
    the byte index of the final rune's first byte against the final byte
    index, so it fires only when the final rune is one byte wide: the `[]`
    case here flushes the pending token only when `w = 1`, and a final token
    whose last rune is multi-byte is silently dropped, as in the source. -/
def splitCmdAux : List Char → Bool → Bool → List Char → Nat → List (List Char)
  | [], _, _, cur, w => if w == 1 && !cur.isEmpty then [cur.reverse] else []
  | c :: cs, inQuotes, escaped, cur, _ =>
    if escaped then splitCmdAux cs inQuotes false (c :: cur) (utf8Width c)
    else if c == '\\' then splitCmdAux cs inQuotes true cur (utf8Width c)
    else if c == '"' || c == '\'' then splitCmdAux cs (!inQuotes) false cur (utf8Width c)
    else if c == ' ' && !inQuotes then
      if cur.isEmpty then splitCmdAux cs inQuotes false [] (utf8Width c)
      else cur.reverse :: splitCmdAux cs inQuotes false [] (utf8Width c)
    else splitCmdAux cs inQuotes false (c :: cur) (utf8Width c)

/-- `Parser.splitCommandLine`: quote-aware tokenization (quote characters are
    dropped, a backslash escapes the next character, unquoted spaces split);
    the end-of-line flush is modeled byte-faithfully via `utf8Width`. -/
def splitCommandLine (l : List Char) : List String :=
  (splitCmdAux l false false [] 0).map String.mk

/-- Loop of `Parser.extractFiles`. A `-o` with a follower records the
    follower as output and `continue`s (skipping the source check for the
    `-o` token itself, while the follower is still inspected on its own
    iteration); every other token updates the source file when it has a
    recognized extension. A trailing `-o` fails the guarded lookahead
    `i+1 < len(args)` and falls through to the (vacuous) source check. -/
def extractFilesGo (src out : String) : List String → String × String
  | [] => (src, out)
  | a :: rest =>
    if a = "-o" then
      match rest with
      | t :: rest2 => extractFilesGo src t (t :: rest2)
      | [] => ((if isSourceFile a then a else src), out)
    else extractFilesGo (if isSourceFile a then a else src) out rest

/-- `Parser.extractFiles`: the output file is the token after the last `-o`
    that has a follower; the source file is the last token recognized by
    `isSourceFile`. -/
def extractFiles (args : List String) : String × String :=
  extractFilesGo "" "" args

/-- `Parser.findCompilerStartIndex`: find the first whitespace-split word
    matching the compiler pattern and return its position reconstructed as
    `Σ (len wordⱼ + 1)` over the preceding words — the Go code assumes each
    preceding word is followed by a single space. `none` models `-1`. -/
def findCompilerStartIndex (l : List Char) : Option Nat :=
  let words := fieldsL l
  match words.findIdx? (fun w => compilerMatchL w) with
  | some i => some (((words.take i).map (fun w => w.length + 1)).sum)
  | none => if compilerMatchL l then some 0 else none

/-! ## `parser` package: backtick substitution and redirection stripping -/

/-- Contents of the successive non-overlapping backtick pairs, as found by
    `FindAllStringSubmatch` of `` `([^`]*)` `` (an unclosed backtick ends the
    matching). `fuel` only needs to cover the input length. -/
def backtickMatchesAux : Nat → List Char → List (List Char)
  | 0, _ => []
  | _ + 1, [] => []
  | fuel + 1, c :: cs =>
    if c == '`' then
      let content := cs.takeWhile (fun x => x ≠ '`')
      match cs.drop content.length with
      | '`' :: r2 => content :: backtickMatchesAux fuel r2
      | _ => []
    else backtickMatchesAux fuel cs

def backtickMatches (l : List Char) : List (List Char) :=
  backtickMatchesAux l.length l

/-- Scan positions left to right, returning the first position where `f`
    matches (the unanchored leftmost search of a Go regex). -/
def scanLeftmost (f : List Char → Option (List Char)) : List Char → Option (List Char)
  | [] => f []
  | c :: cs =>
    match f (c :: cs) with
    | some r => some r
    | none => scanLeftmost f cs

/-- Anchored match of `echo\s+['"]([^'"]+)['"]`, returning the capture. -/
def matchEchoQuoted (l : List Char) : Option (List Char) := do
  let r ← stripPrefixL "echo".toList l
  let ws := r.takeWhile isRegexSpace
  if ws.isEmpty then none
  else
    match r.drop ws.length with
    | q :: rest =>
      if q == '\'' || q == '"' then
        let content := rest.takeWhile (fun c => c ≠ '\'' && c ≠ '"')
        if content.isEmpty then none
        else
          match rest.drop content.length with
          | q2 :: _ => if q2 == '\'' || q2 == '"' then some content else none
          | [] => none
      else none
    | [] => none

/-- Anchored match of `echo\s+([^\s]+)`, returning the capture. -/
def matchEchoBare (l : List Char) : Option (List Char) := do
  let r ← stripPrefixL "echo".toList l
  let ws := r.takeWhile isRegexSpace
  if ws.isEmpty then none
  else
    let content := (r.drop ws.length).takeWhile (fun c => !isRegexSpace c)
    if content.isEmpty then none else some content

/-- `Parser.extractPathFromCommand`: the quoted-echo capture, else the bare
    echo capture, else empty. -/
def extractPathFromCommand (command : List Char) : List Char :=
  match scanLeftmost matchEchoQuoted command with
  | some p => p
  | none =>
    match scanLeftmost matchEchoBare command with
    | some p => p
    | none => []

/-- One replacement step of `processBacktickSubstitution` for the backtick
    content `content`, operating on the current `result` string. `strings.Index`
    returning `-1` makes Go read `result[len(full)-1]` for the alnum check;
    the `none` branch mirrors that. -/
def backtickReplaceStep (result content : List Char) : List Char :=
  let full := '`' :: (content ++ ['`'])
  let path := extractPathFromCommand content
  if path.isEmpty then replaceFirstSub result full []
  else
    let endIdx :=
      match indexOfSub full result with
      | some n => n + full.length
      | none => full.length - 1
    let repl :=
      if h : endIdx < result.length then
        if isAsciiAlnum (result.get ⟨endIdx, h⟩) && path.getLast? ≠ some '/' then
          path ++ [' ']
        else path
      else path
    replaceFirstSub result full repl

/-- `Parser.processBacktickSubstitution`. -/
def processBacktickSubstitution (line : List Char) : List Char :=
  (backtickMatches line).foldl backtickReplaceStep line

/-- The redirection patterns of `removeRedirectionOperators`, minus their
    common `\s+` prefix: literals, `\d+`, `\S+`, and an `$` anchor. -/
inductive RedirElem where
  | lit (c : Char)
  | digits
  | nonspaces
  | eol
deriving Repr, DecidableEq

/-- Match the pattern tail at the head of the input (greedy `\d+`/`\S+` are
    exact here because what follows them can never also match a digit or a
    non-space they consumed). Returns the remainder after the match. -/
def matchElems : List RedirElem → List Char → Option (List Char)
  | [], l => some l
  | .lit c :: p, x :: l => if x == c then matchElems p l else none
  | .lit _ :: _, [] => none
  | .digits :: p, l =>
    let ds := l.takeWhile isAsciiDigitCh
    if ds.isEmpty then none else matchElems p (l.drop ds.length)
  | .nonspaces :: p, l =>
    let ns := l.takeWhile (fun c => !isRegexSpace c)
    if ns.isEmpty then none else matchElems p (l.drop ns.length)
  | .eol :: p, l => if l.isEmpty then matchElems p l else none

/-- Try one redirection pattern anchored at the current position: `\s+`
    (greedy, exact since no pattern continues with a space) then the tail. -/
def tryMatchRedir (p : List RedirElem) (l : List Char) : Option (List Char) :=
  let ws := l.takeWhile isRegexSpace
  if ws.isEmpty then none else matchElems p (l.drop ws.length)

/-- `ReplaceAllString(pattern, "")`: delete successive non-overlapping
    leftmost matches. Every pattern consumes at least two characters, so
    fuel equal to the input length suffices. -/
def applyRedirPatAux (p : List RedirElem) : Nat → List Char → List Char
  | 0, l => l
  | _ + 1, [] => []
  | fuel + 1, c :: cs =>
    match tryMatchRedir p (c :: cs) with
    | some rest => applyRedirPatAux p fuel rest
    | none => c :: applyRedirPatAux p fuel cs

def applyRedirPat (l : List Char) (p : List RedirElem) : List Char :=
  applyRedirPatAux p l.length l

/-- The twelve patterns of `removeRedirectionOperators`, in source order. -/
def redirPatterns : List (List RedirElem) :=
  [ [.lit '2', .lit '>', .lit '&', .lit '1'],
    [.lit '>', .lit '&', .lit '1'],
    [.lit '>', .nonspaces],
    [.lit '>', .lit '>', .nonspaces],
    [.lit '<', .nonspaces],
    [.lit '2', .lit '>', .nonspaces],
    [.lit '2', .lit '>', .lit '>', .nonspaces],
    [.digits, .lit '>', .lit '&', .digits],
    [.digits, .lit '>', .nonspaces],
    [.digits, .lit '>', .lit '>', .nonspaces],
    [.lit '2', .lit '>', .lit '&', .lit '1', .eol],
    [.lit '>', .lit '&', .lit '1', .eol] ]

/-- `Parser.removeRedirectionOperators`: backtick processing, then the
    redirection patterns in order, then `strings.TrimSpace`. -/
def removeRedirectionOperators (line : List Char) : List Char :=
  trimSpaceL ((redirPatterns.foldl applyRedirPat (processBacktickSubstitution line)))

/-! ## `parser` package: command parsing -/

/-- `Parser.parseCompilerCommandOnly`: clean the line, locate the compiler,
    tokenize from there, and extract files; fails without a recognizable
    source file. The working directory is left empty for the caller. -/
def parseCompilerCommandOnly (line : List Char) : Option MakeLogEntry := do
  let cleanLine := removeRedirectionOperators line
  let idx ← findCompilerStartIndex cleanLine
  let compilerCommand := cleanLine.drop idx
  let args := splitCommandLine compilerCommand
  match args with
  | [] => none
  | compiler :: _ =>
    let (sourceFile, outputFile) := extractFiles args
    if sourceFile = "" then none
    else some ⟨"", compiler, args, sourceFile, outputFile⟩

/-- The match of `^\s*cd\s+([^&]+)\s*&&\s*(.+)$` (greedy RE2 semantics),
    returning the two captures. The first `&` of the line must start a `&&`;
    the capture groups land exactly as the greedy quantifiers leave them. -/
def cdChainMatch (l : List Char) : Option (List Char × List Char) := do
  let l1 := l.drop (l.takeWhile isRegexSpace).length
  let r ← stripPrefixL "cd".toList l1
  let t := r.takeWhile (fun c => c ≠ '&')
  let wsRun := (t.takeWhile isRegexSpace).length
  if wsRun = 0 || t.length < 2 then none
  else
    let g1 := t.drop (min wsRun (t.length - 1))
    match r.drop t.length with
    | '&' :: '&' :: v =>
      let wsv := (v.takeWhile isRegexSpace).length
      if wsv = v.length then
        match v.getLast? with
        | some c => if c = '\n' then none else some (g1, [c])
        | none => none
      else
        let g2 := v.drop wsv
        if g2.contains '\n' then none else some (g1, g2)
    | _ => none

/-- `Parser.parseShellCommandChain`: `cd <dir> && <rest>` lines resolve a
    one-off working directory from the stack top and `<dir>`; the persistent
    stack is untouched. -/
def parseShellCommandChain (st : ParserState) (line : List Char) :
    Option MakeLogEntry := do
  let (g1, g2) ← cdChainMatch line
  let cdDir := String.mk (trimSpaceL g1)
  let compilerCommand := trimSpaceL g2
  let entry ← parseCompilerCommandOnly compilerCommand
  let currentWorkingDir := st.dirStack.getLast?.getD ""
  some { entry with WorkingDir := resolveRelativePath currentWorkingDir cdDir }

/-- `Parser.parseDirectCompileCommand`: like `parseCompilerCommandOnly` but
    the record's working directory is the current stack top (empty if the
    stack is empty). -/
def parseDirectCompileCommand (st : ParserState) (line : List Char) :
    Option MakeLogEntry := do
  let entry ← parseCompilerCommandOnly line
  some { entry with WorkingDir := st.dirStack.getLast?.getD "" }

/-- `Parser.parseCompileCommand`: echo lines are skipped outright; lines
    matching the compiler pattern go through the shell-chain parser first
    and fall back to the direct parser. -/
def parseCompileCommand (st : ParserState) (line : String) : Option MakeLogEntry :=
  if "echo ".toList.isPrefixOf (trimSpaceL line.toList) then none
  else if compilerMatchL line.toList then
    match parseShellCommandChain st line.toList with
    | some entry => some entry
    | none => parseDirectCompileCommand st line.toList
  else none

/-- One iteration of the `ParseMakeLog` scan loop on an already-read line:
    trim, skip blanks and `#` comments, consume directory markers, otherwise
    try to parse a compilation command. -/
def processLine (st : ParserState) (rawLine : String) :
    ParserState × Option MakeLogEntry :=
  let line := trimSpace rawLine
  if line = "" then (st, none)
  else if line.toList.headD ' ' == '#' then (st, none)
  else
    match handleDirectoryChange st line with
    | (true, st') => (st', none)
    | (false, _) => (st, parseCompileCommand st line)

/-- `Parser.ParseMakeLog` on a pure list of input lines (the scanner only
    splits the stream into lines; read errors are the callers' concern).
    Returns the collected entries and the final parser state. A non-empty
    `options.BaseDir` seeds the directory stack. -/
def parseMakeLog (options : ParseOptions) (lines : List String) :
    List MakeLogEntry × ParserState :=
  let st0 : ParserState :=
    ⟨if options.BaseDir ≠ "" then [options.BaseDir] else [], []⟩
  go st0 lines
where
  go (st : ParserState) : List String → List MakeLogEntry × ParserState
    | [] => ([], st)
    | line :: rest =>
      match processLine st line with
      | (st', none) => go st' rest
      | (st', some entry) =>
        let (entries, stFin) := go st' rest
        (entry :: entries, stFin)

/-! ## `generator` package: validation

`Generator.ValidateCompileDB` walks the database in order; the first
structural defect aborts with an error. Whether a source file exists on disk
(`os.Stat`) only feeds a warning counter — the filesystem is abstracted as a
predicate and never influences success. -/

/-- `ValidateCompileDB`, returning the number of missing files on success
    (the Go code prints that count as a warning and returns `nil`). -/
def validateCompileDB (fileExists : String → Bool)
    (compileDB : List CompilationEntry) : Except String Nat :=
  if compileDB.isEmpty then .error "compilation database is empty"
  else go 0 0 compileDB
where
  go (i missing : Nat) : List CompilationEntry → Except String Nat
    | [] => .ok missing
    | entry :: rest =>
      if entry.Directory = "" then
        .error ("entry " ++ toString i ++ ": working directory cannot be empty")
      else if entry.File = "" then
        .error ("entry " ++ toString i ++ ": source file path cannot be empty")
      else if entry.Arguments.isEmpty then
        .error ("entry " ++ toString i ++ ": arguments cannot be empty")
      else go (i + 1) (missing + if fileExists entry.File then 0 else 1) rest

/-! ## `generator` package: JSON serialization

`json.MarshalIndent(compileDB, "", "  ")` with the `types.CompilationEntry`
struct tags: keys in declaration order `directory`, `command,omitempty`,
`arguments,omitempty`, `file`, `output,omitempty`; strings escaped the way
`encoding/json` escapes them (HTML escaping on); two-space indentation. -/

/-- Lower-case hex digit, as Go's JSON encoder emits in `\u00xx`. -/
def hexDigitLC (n : Nat) : Char :=
  if n < 10 then Char.ofNat ('0'.toNat + n) else Char.ofNat ('a'.toNat + (n - 10))

/-- One character as Go's `encoding/json` string encoder (HTML escaping on)
    emits it: `\"`, `\\`, `\n`, `\r`, `\t` short forms; `<`, `>`, `&`, other
    control characters, U+2028 and U+2029 as `\uXXXX`; the rest literally. -/
def goEscChar (c : Char) : List Char :=
  if c = '"' then ['\\', '"']
  else if c = '\\' then ['\\', '\\']
  else if c = '\n' then ['\\', 'n']
  else if c = '\r' then ['\\', 'r']
  else if c = '\t' then ['\\', 't']
  else if c = '<' ∨ c = '>' ∨ c = '&' ∨ c.toNat < 0x20 ∨
      c.toNat = 0x2028 ∨ c.toNat = 0x2029 then
    ['\\', 'u', hexDigitLC (c.toNat / 4096 % 16), hexDigitLC (c.toNat / 256 % 16),
     hexDigitLC (c.toNat / 16 % 16), hexDigitLC (c.toNat % 16)]
  else [c]

/-- A JSON string literal for `s`. -/
def jStr (s : String) : List Char :=
  '"' :: (s.toList.flatMap goEscChar ++ ['"'])

/-- `2 * n` spaces: `n` copies of the `"  "` indent unit. -/
def ind (n : Nat) : List Char :=
  List.replicate (2 * n) ' '

/-- The `"arguments"` array value as MarshalIndent renders it at field depth
    2: elements on their own lines at depth 3, closing bracket at depth 2.
    Only called on non-empty lists (`omitempty` removes empty ones). -/
def argsJson (args : List String) : List Char :=
  '[' :: '\n' ::
    (List.intercalate (',' :: '\n' :: []) (args.map (fun a => ind 3 ++ jStr a)) ++
      '\n' :: (ind 2 ++ [']']))

/-- One `"key": value` member line at field depth 2. -/
def memberJson (key : String) (val : List Char) : List Char :=
  ind 2 ++ jStr key ++ ':' :: ' ' :: val

/-- The member lines of one entry, honouring the `omitempty` tags. -/
def entryMemberLines (e : CompilationEntry) : List (List Char) :=
  [memberJson "directory" (jStr e.Directory)] ++
  (if e.Command = "" then [] else [memberJson "command" (jStr e.Command)]) ++
  (if e.Arguments.isEmpty then [] else [memberJson "arguments" (argsJson e.Arguments)]) ++
  [memberJson "file" (jStr e.File)] ++
  (if e.Output = "" then [] else [memberJson "output" (jStr e.Output)])

/-- One entry object at array depth 1. -/
def entryJson (e : CompilationEntry) : List Char :=
  ind 1 ++ '{' :: '\n' ::
    (List.intercalate (',' :: '\n' :: []) (entryMemberLines e) ++
      '\n' :: (ind 1 ++ ['}']))

/-- `json.MarshalIndent(compileDB, "", "  ")`. The empty database is the nil
    slice the generator builds up from no entries, which marshals to
    `null`. -/
def marshalIndentDB (compileDB : List CompilationEntry) : List Char :=
  match compileDB with
  | [] => "null".toList
  | _ =>
    '[' :: '\n' ::
      (List.intercalate (',' :: '\n' :: []) (compileDB.map entryJson) ++
        '\n' :: [']'])

/-- The bytes `generator.WriteCompilationDatabase` persists: the indented
    JSON document followed by the explicitly appended `"\n"`. -/
def writeCompilationDatabaseBytes (compileDB : List CompilationEntry) : List Char :=
  marshalIndentDB compileDB ++ ['\n']

/-- The bytes the `Generator.WriteToFile` variant persists: the indented
    JSON document alone (no trailing newline is written there). -/
def writeToFileBytes (compileDB : List CompilationEntry) : List Char :=
  marshalIndentDB compileDB

/-! ## JSON re-parsing (`encoding/json.Unmarshal` at `CompilationDatabase`)

A small recursive-descent JSON parser over the value grammar (numbers are
lexed but kept raw — decoding a number into any field of
`CompilationEntry` is a type error anyway), followed by the struct decoding
rules Go applies: unknown object keys are ignored, later duplicates win,
absent fields keep their zero value, `null` decodes a slice to nil. -/

/-- A parsed JSON value. -/
inductive JVal where
  | null
  | jbool (b : Bool)
  | jnum (raw : List Char)
  | jstr (s : String)
  | jarr (elems : List JVal)
  | jobj (members : List (String × JVal))

/-- JSON insignificant whitespace (RFC 8259): space, tab, newline, return. -/
def isJsonWs (c : Char) : Bool :=
  c == ' ' || c == '\t' || c == '\n' || c == '\r'

def jSkipWs : List Char → List Char
  | [] => []
  | c :: cs => if isJsonWs c then jSkipWs cs else c :: cs

/-- Hex digit value for `\uXXXX` escapes. -/
def jHexVal (c : Char) : Option Nat :=
  let n := c.toNat
  if 48 ≤ n && n ≤ 57 then some (n - 48)
  else if 97 ≤ n && n ≤ 102 then some (n - 87)
  else if 65 ≤ n && n ≤ 70 then some (n - 55)
  else none

def jHex4 (a b c d : Char) : Option Nat := do
  let va ← jHexVal a
  let vb ← jHexVal b
  let vc ← jHexVal c
  let vd ← jHexVal d
  some (((va * 16 + vb) * 16 + vc) * 16 + vd)

/-- Decode one escape character short form (`\"`, `\\`, `\/`, `\n`, `\r`,
    `\t`, `\b`, `\f`). -/
def jUnescape (e : Char) : Option Char :=
  if e = '"' then some '"'
  else if e = '\\' then some '\\'
  else if e = '/' then some '/'
  else if e = 'n' then some '\n'
  else if e = 'r' then some '\r'
  else if e = 't' then some '\t'
  else if e = 'b' then some '\x08'
  else if e = 'f' then some '\x0c'
  else none

/-- Body of a string literal, after the opening quote: `acc` holds decoded
    characters in reverse. Raw control characters are rejected, escape
    sequences are decoded. -/
def jStrBody (acc : List Char) : List Char → Option (String × List Char)
  | [] => none
  | c :: rest =>
    if c = '"' then some (String.mk acc.reverse, rest)
    else if c = '\\' then
      match rest with
      | [] => none
      | e :: rest2 =>
        if e = 'u' then
          match rest2 with
          | a :: b :: c2 :: d :: r =>
            match jHex4 a b c2 d with
            | some n => jStrBody (Char.ofNat n :: acc) r
            | none => none
          | _ => none
        else
          match jUnescape e with
          | some ch => jStrBody (ch :: acc) rest2
          | none => none
    else if c.toNat < 0x20 then none
    else jStrBody (c :: acc) rest

/-- Lex a number token (sign, integer part, optional fraction/exponent),
    returning the raw characters and the remainder. -/
def jNumLex (l : List Char) : Option (List Char × List Char) :=
  let (sgn, l1) := match l with
    | '-' :: r => (['-'], r)
    | _ => (([] : List Char), l)
  let ds := l1.takeWhile isAsciiDigitCh
  if ds.isEmpty then none
  else
    let l2 := l1.drop ds.length
    let (frac, l3) := match l2 with
      | '.' :: r =>
        let fs := r.takeWhile isAsciiDigitCh
        (('.' :: fs), r.drop fs.length)
      | _ => (([] : List Char), l2)
    let (expo, l4) := match l3 with
      | 'e' :: r =>
        let (es, r1) := match r with
          | '+' :: r2 => ((['e', '+'] : List Char), r2)
          | '-' :: r2 => (['e', '-'], r2)
          | _ => (['e'], r)
        let xs := r1.takeWhile isAsciiDigitCh
        ((es ++ xs), r1.drop xs.length)
      | 'E' :: r =>
        let (es, r1) := match r with
          | '+' :: r2 => ((['E', '+'] : List Char), r2)
          | '-' :: r2 => (['E', '-'], r2)
          | _ => (['E'], r)
        let xs := r1.takeWhile isAsciiDigitCh
        ((es ++ xs), r1.drop xs.length)
      | _ => (([] : List Char), l3)
    some (sgn ++ ds ++ frac ++ expo, l4)

mutual

/-- Parse one JSON value; `fuel` bounds the recursion (any fuel above the
    input length is enough, since every level consumes input). -/
def jParseVal : Nat → List Char → Option (JVal × List Char)
  | 0, _ => none
  | fuel + 1, cs =>
    match jSkipWs cs with
    | [] => none
    | c :: r =>
      if c = '"' then (jStrBody [] r).map (fun p => (.jstr p.1, p.2))
      else if c = '[' then
        match jSkipWs r with
        | [] => (jParseElems fuel r).map (fun p => (.jarr p.1, p.2))
        | c2 :: r2 =>
          if c2 = ']' then some (.jarr [], r2)
          else (jParseElems fuel r).map (fun p => (.jarr p.1, p.2))
      else if c = '{' then
        match jSkipWs r with
        | [] => (jParseMembers fuel r).map (fun p => (.jobj p.1, p.2))
        | c2 :: r2 =>
          if c2 = '}' then some (.jobj [], r2)
          else (jParseMembers fuel r).map (fun p => (.jobj p.1, p.2))
      else if c = 'n' then
        match stripPrefixL "ull".toList r with
        | some r2 => some (.null, r2)
        | none => none
      else if c = 't' then
        match stripPrefixL "rue".toList r with
        | some r2 => some (.jbool true, r2)
        | none => none
      else if c = 'f' then
        match stripPrefixL "alse".toList r with
        | some r2 => some (.jbool false, r2)
        | none => none
      else if c = '-' || isAsciiDigitCh c then
        (jNumLex (c :: r)).map (fun p => (.jnum p.1, p.2))
      else none

/-- Parse one or more comma-separated array elements up to the closing `]`. -/
def jParseElems : Nat → List Char → Option (List JVal × List Char)
  | 0, _ => none
  | fuel + 1, cs => do
    let (v, r) ← jParseVal fuel cs
    match jSkipWs r with
    | [] => none
    | c :: r2 =>
      if c = ',' then (jParseElems fuel r2).map (fun p => (v :: p.1, p.2))
      else if c = ']' then some ([v], r2)
      else none

/-- Parse one or more `"key": value` members up to the closing `}`. -/
def jParseMembers : Nat → List Char → Option (List (String × JVal) × List Char)
  | 0, _ => none
  | fuel + 1, cs =>
    match jSkipWs cs with
    | [] => none
    | c :: r =>
      if c = '"' then do
        let (k, r1) ← jStrBody [] r
        match jSkipWs r1 with
        | [] => none
        | c2 :: r2 =>
          if c2 = ':' then do
            let (v, r3) ← jParseVal fuel r2
            match jSkipWs r3 with
            | [] => none
            | c3 :: r4 =>
              if c3 = ',' then (jParseMembers fuel r4).map (fun p => ((k, v) :: p.1, p.2))
              else if c3 = '}' then some ([(k, v)], r4)
              else none
          else none
      else none

end

/-- Parse a complete JSON document (no trailing garbage). -/
def jParseDoc (s : String) : Option JVal := do
  let cs := s.toList
  let (v, r) ← jParseVal (cs.length + 1) cs
  if (jSkipWs r).isEmpty then some v else none

/-- Decode a JSON value into a string field. -/
def jAsString : JVal → Option String
  | .jstr s => some s
  | _ => none

/-- Decode a JSON value into a `[]string` field (`null` leaves it nil). -/
def jAsStringList : JVal → Option (List String)
  | .null => some []
  | .jarr es => es.mapM jAsString
  | _ => none

/-- Apply one object member to a partially decoded entry, per the struct
    tags of `types.CompilationEntry`; unknown keys are ignored. -/
def applyEntryField (e : CompilationEntry) (kv : String × JVal) : Option CompilationEntry :=
  if kv.1 = "directory" then (jAsString kv.2).map fun s => { e with Directory := s }
  else if kv.1 = "command" then (jAsString kv.2).map fun s => { e with Command := s }
  else if kv.1 = "arguments" then (jAsStringList kv.2).map fun a => { e with Arguments := a }
  else if kv.1 = "file" then (jAsString kv.2).map fun s => { e with File := s }
  else if kv.1 = "output" then (jAsString kv.2).map fun s => { e with Output := s }
  else some e

/-- Decode one array element into a `CompilationEntry` (zero value for
    absent fields; `null` leaves the zero value). -/
def decodeEntry : JVal → Option CompilationEntry
  | .jobj ms => ms.foldlM applyEntryField {}
  | .null => some {}
  | _ => none

/-- `json.Unmarshal(data, &compileDB)`: the document must be an array of
    entry objects (or `null`, which leaves the slice nil). -/
def unmarshalCompilationDatabase (s : String) : Option (List CompilationEntry) := do
  let v ← jParseDoc s
  match v with
  | .null => some []
  | .jarr es => es.mapM decodeEntry
  | _ => none


/-! ## Auxiliary definitions for the serialization proofs -/

def hasAngleLit (p : List RedirElem) : Bool :=
  p.any (fun e => e == RedirElem.lit '>' || e == RedirElem.lit '<')

/-- Characters allowed in the wrapper/compiler words of the amended C6
    statement: printable ASCII (single UTF-8 byte) with no whitespace,
    quotes, backslash, backtick, angle brackets, or ampersand. -/
def c6PlainChar (c : Char) : Bool :=
  c.toNat < 128 && !isUnicodeSpace c && !(c == '"') && !(c == '\'') &&
  !(c == '\\') && !(c == '`') && !(c == '<') && !(c == '>') && !(c == '&')

/-- A command line assembled from words separated by single spaces. -/
def joinWords : List String → List Char
  | [] => []
  | [w] => w.toList
  | w :: ws => w.toList ++ ' ' :: joinWords ws


/-- The two value shapes occurring in a serialized entry member. -/
inductive FieldVal where
  | fstr (s : String)
  | fargs (args : List String)

/-- The rendered text of a member value. -/
def fvText : FieldVal → List Char
  | .fstr s => jStr s
  | .fargs args => argsJson args

/-- The JSON value a member value parses back to. -/
def fvJVal : FieldVal → JVal
  | .fstr s => .jstr s
  | .fargs args => .jarr (args.map JVal.jstr)

/-- Parser fuel sufficient for one member value. -/
def fvFuel : FieldVal → Nat
  | .fstr _ => 1
  | .fargs args => 2 * args.length + 2

/-- Argument arrays are only serialized when non-empty (`omitempty`). -/
def fvGood : FieldVal → Prop
  | .fstr _ => True
  | .fargs args => args ≠ []

/-- One rendered member line, parameterized by its value shape. -/
def renderMember (it : String × FieldVal) : List Char :=
  memberJson it.1 (fvText it.2)

/-- Parser fuel sufficient for a member list. -/
def membersFuel (items : List (String × FieldVal)) : Nat :=
  (items.map (fun it => fvFuel it.2 + 1)).sum + 1

/-- The members of one serialized entry, with their value shapes. -/
def entryItems (e : CompilationEntry) : List (String × FieldVal) :=
  [("directory", .fstr e.Directory)] ++
  (if e.Command = "" then [] else [("command", .fstr e.Command)]) ++
  (if e.Arguments.isEmpty then [] else [("arguments", .fargs e.Arguments)]) ++
  [("file", .fstr e.File)] ++
  (if e.Output = "" then [] else [("output", .fstr e.Output)])

/-- Parser fuel sufficient for one entry object. -/
def entryFuel (e : CompilationEntry) : Nat :=
  membersFuel (entryItems e) + 1

/-- The JSON object an entry serializes to. -/
def entryMembersJ (e : CompilationEntry) : List (String × JVal) :=
  (entryItems e).map (fun it => (it.1, fvJVal it.2))

/-- Parser fuel sufficient for the whole database document. -/
def dbFuel (db : List CompilationEntry) : Nat :=
  (db.map (fun e => entryFuel e + 1)).sum + 2

/-! # Helper lemmas -/

set_option maxRecDepth 20000

theorem stripPrefixL_eq_some (p : List Char) : ∀ (l r : List Char),
    stripPrefixL p l = some r ↔ l = p ++ r := by
  induction p with
  | nil =>
    intro l r
    simp [stripPrefixL, eq_comm]
  | cons c cs ih =>
    intro l r
    cases l with
    | nil => simp [stripPrefixL]
    | cons x xs =>
      rw [show stripPrefixL (c :: cs) (x :: xs) =
            (if c == x then stripPrefixL cs xs else none) from rfl]
      by_cases h : c = x
      · subst h
        rw [if_pos (by simp), ih]
        simp
      · rw [if_neg (by simp [h])]
        simp only [List.cons_append]
        constructor
        · intro hh; simp at hh
        · intro hh
          injection hh with h1 _
          exact absurd h1.symm h

/-- A line matching the `Leaving` marker cannot also match the `Entering`
    marker: after the shared `make(\[\d+\])?` prefix the literals diverge. -/
theorem matchMakeDir_excl (l : List Char) (d : List Char)
    (h : matchMakeDir "Leaving" l = some d) :
    matchMakeDir "Entering" l = none := by
  unfold matchMakeDir at h ⊢
  cases htag : stripMakeTag l with
  | none => rw [htag] at h; simp at h
  | some r =>
    rw [htag] at h
    simp only [Option.bind_eq_bind, Option.some_bind] at h ⊢
    cases hstrip : stripPrefixL (": " ++ "Leaving" ++ " directory '").toList r with
    | none => rw [hstrip] at h; simp at h
    | some r2 =>
      cases hstrip2 : stripPrefixL (": " ++ "Entering" ++ " directory '").toList r with
      | none => simp [hstrip2]
      | some r3 =>
        exfalso
        rw [stripPrefixL_eq_some] at hstrip hstrip2
        have h2 : (((": " ++ "Leaving" ++ " directory '").toList ++ r2))[2]? =
            (((": " ++ "Entering" ++ " directory '").toList ++ r3))[2]? := by
          rw [← hstrip, ← hstrip2]
        rw [List.getElem?_append_left (by decide),
          List.getElem?_append_left (by decide)] at h2
        simp at h2

/-- The source-file component of the extraction loop is the last token with a
    recognized extension, defaulting to the incoming accumulator. -/
theorem extractFilesGo_src (args : List String) : ∀ (src out : String),
    (extractFilesGo src out args).1 =
      (args.filter (fun a => isSourceFile a)).getLastD src := by
  induction args with
  | nil => intro src out; simp [extractFilesGo]
  | cons a rest ih =>
    intro src out
    rw [extractFilesGo.eq_def]
    dsimp only
    by_cases h : a = "-o"
    · subst h
      have hs : isSourceFile "-o" = false := by decide
      have hfo : ∀ l : List String,
          List.filter (fun a => isSourceFile a) ("-o" :: l) =
            List.filter (fun a => isSourceFile a) l := by
        intro l; rw [List.filter_cons, hs]; simp
      rw [if_pos rfl]
      cases rest with
      | nil => rw [hfo]; simp [hs]
      | cons t rest2 =>
        dsimp only
        rw [hfo]
        exact ih _ _
    · rw [if_neg h, ih, List.filter_cons]
      by_cases hsf : isSourceFile a
      · rw [hsf, if_pos rfl, if_pos rfl, List.getLastD_cons]
      · rw [if_neg (by simp [hsf]), if_neg (by simp [hsf])]

/-- Without any `-o` token the output accumulator is returned unchanged. -/
theorem extractFilesGo_out_notMem (args : List String) : ∀ (src out : String),
    "-o" ∉ args → (extractFilesGo src out args).2 = out := by
  induction args with
  | nil => intro src out _; simp [extractFilesGo]
  | cons a rest ih =>
    intro src out h
    have ha : a ≠ "-o" := by intro e; exact h (by simp [e])
    have hr : "-o" ∉ rest := by intro e; exact h (by simp [e])
    rw [extractFilesGo.eq_def]
    dsimp only
    rw [if_neg ha, ih _ _ hr]

/-- With a unique `-o` that has a follower, the extraction loop returns that
    follower as the output file. -/
theorem extractFilesGo_out_unique (args : List String) : ∀ (src out : String)
    (i : Nat), args.count "-o" = 1 → args[i]? = some "-o" →
    ∀ w, args[i+1]? = some w → (extractFilesGo src out args).2 = w := by
  induction args with
  | nil => intro src out i _ hi w hw; simp at hi
  | cons a rest ih =>
    intro src out i hc hi w hw
    rw [extractFilesGo.eq_def]
    dsimp only
    by_cases h : a = "-o"
    · subst h
      have hrest : rest.count "-o" = 0 := by
        rw [List.count_cons] at hc; simp at hc; omega
      have hnm : "-o" ∉ rest := by
        intro e
        have := List.count_pos_iff.2 e
        omega
      rw [if_pos rfl]
      rw [List.getElem?_cons_succ] at hw
      have hi0 : i = 0 := by
        by_contra hne
        obtain ⟨j, rfl⟩ : ∃ j, i = j + 1 := ⟨i - 1, by omega⟩
        rw [List.getElem?_cons_succ] at hi
        exact hnm (List.getElem?_mem hi)
      subst hi0
      cases rest with
      | nil => simp at hw
      | cons t rest2 =>
        simp only [List.getElem?_cons_zero, Option.some.injEq] at hw
        subst hw
        dsimp only
        exact extractFilesGo_out_notMem _ _ _ hnm
    · obtain ⟨j, rfl⟩ : ∃ j, i = j + 1 := by
        cases i with
        | zero =>
          simp only [List.getElem?_cons_zero, Option.some.injEq] at hi
          exact absurd hi h
        | succ j => exact ⟨j, rfl⟩
      rw [List.getElem?_cons_succ] at hi
      rw [List.getElem?_cons_succ] at hw
      have hc' : rest.count "-o" = 1 := by
        rw [List.count_cons] at hc
        simpa [h] using hc
      rw [if_neg h]
      exact ih _ _ j hc' hi w hw

/-- A trailing `-o` (with no earlier `-o`) leaves the output accumulator
    untouched: the lookahead guard fails and nothing is assigned. -/
theorem extractFilesGo_out_trailing (args : List String) : ∀ (src out : String),
    args.getLast? = some "-o" → "-o" ∉ args.dropLast →
    (extractFilesGo src out args).2 = out := by
  induction args with
  | nil => intro src out h _; simp at h
  | cons a rest ih =>
    intro src out hlast hnm
    rw [extractFilesGo.eq_def]
    dsimp only
    cases rest with
    | nil =>
      have ha : a = "-o" := by simpa using hlast
      subst ha
      rw [if_pos rfl]
    | cons b rest2 =>
      have hdl : (a :: b :: rest2).dropLast = a :: (b :: rest2).dropLast := rfl
      rw [hdl] at hnm
      have ha : a ≠ "-o" := fun e => hnm (by simp [e])
      have hnm2 : "-o" ∉ (b :: rest2).dropLast := fun e => hnm (by simp [e])
      have hlast2 : (b :: rest2).getLast? = some "-o" := by
        rwa [List.getLast?_cons_cons] at hlast
      rw [if_neg ha]
      exact ih _ _ hlast2 hnm2

/-- Any record produced by `parseCompilerCommandOnly` carries the fields
    `extractFiles` computed from its own argument list, a non-empty source
    file, and the first argument as compiler. -/
theorem parseCompilerCommandOnly_shape (line : List Char) (e : MakeLogEntry)
    (h : parseCompilerCommandOnly line = some e) :
    e.SourceFile = (extractFiles e.Args).1 ∧ e.OutputFile = (extractFiles e.Args).2 ∧
    e.SourceFile ≠ "" ∧ e.Args ≠ [] ∧ e.Compiler = e.Args.headD "" := by
  unfold parseCompilerCommandOnly at h
  dsimp only at h
  cases hfind : findCompilerStartIndex (removeRedirectionOperators line) with
  | none => rw [hfind] at h; simp at h
  | some idx =>
    rw [hfind] at h
    simp only [Option.bind_eq_bind, Option.some_bind] at h
    cases hargs : splitCommandLine ((removeRedirectionOperators line).drop idx) with
    | nil => rw [hargs] at h; simp at h
    | cons compiler rest =>
      rw [hargs] at h
      dsimp only at h
      by_cases hsrc : (extractFiles (compiler :: rest)).1 = ""
      · rw [if_pos hsrc] at h; simp at h
      · rw [if_neg hsrc] at h
        simp only [Option.some.injEq] at h
        subst h
        refine ⟨rfl, rfl, hsrc, by simp, rfl⟩

/-- The same field discipline holds through `parseCompileCommand`: the shell
    chain and the direct parser only override the working directory. -/
theorem parseCompileCommand_shape (st : ParserState) (line : String) (e : MakeLogEntry)
    (h : parseCompileCommand st line = some e) :
    e.SourceFile = (extractFiles e.Args).1 ∧ e.OutputFile = (extractFiles e.Args).2 ∧
    e.SourceFile ≠ "" ∧ e.Args ≠ [] ∧ e.Compiler = e.Args.headD "" := by
  unfold parseCompileCommand at h
  by_cases hecho : "echo ".toList.isPrefixOf (trimSpaceL line.toList)
  · rw [if_pos hecho] at h; simp at h
  · rw [if_neg hecho] at h
    by_cases hcm : compilerMatchL line.toList
    · rw [if_pos hcm] at h
      cases hchain : parseShellCommandChain st line.toList with
      | some e0 =>
        rw [hchain] at h
        simp only [Option.some.injEq] at h
        subst h
        unfold parseShellCommandChain at hchain
        simp only [Option.bind_eq_bind, bind, Option.bind] at hchain
        cases hm : cdChainMatch line.toList with
        | none => rw [hm] at hchain; simp at hchain
        | some gs =>
          rw [hm] at hchain
          dsimp only at hchain
          cases hpo : parseCompilerCommandOnly (trimSpaceL gs.2) with
          | none =>
            rw [hpo] at hchain; simp at hchain
          | some e1 =>
            rw [hpo] at hchain
            simp only [Option.some.injEq] at hchain
            have hsh := parseCompilerCommandOnly_shape _ _ hpo
            rw [← hchain]
            simpa using hsh
      | none =>
        rw [hchain] at h
        unfold parseDirectCompileCommand at h
        cases hpo : parseCompilerCommandOnly line.toList with
        | none => rw [hpo] at h; simp at h
        | some e1 =>
          rw [hpo] at h
          simp only [Option.bind_eq_bind, Option.some_bind, Option.some.injEq] at h
          have hsh := parseCompilerCommandOnly_shape _ _ hpo
          rw [← h]
          simpa using hsh
    · rw [if_neg hcm] at h; simp at h

/-- Structural-defect characterization of the validation loop: it succeeds
    exactly when every remaining entry has the three required fields. -/
theorem validateCompileDBGo_ok_iff (fileExists : String → Bool)
    (db : List CompilationEntry) : ∀ (i m : Nat),
    (∃ n, validateCompileDB.go fileExists i m db = .ok n) ↔
      ∀ e ∈ db, e.Directory ≠ "" ∧ e.File ≠ "" ∧ e.Arguments ≠ [] := by
  induction db with
  | nil => intro i m; simp [validateCompileDB.go]
  | cons entry rest ih =>
    intro i m
    rw [validateCompileDB.go.eq_def]
    dsimp only
    by_cases h1 : entry.Directory = ""
    · rw [if_pos h1]
      simp [h1]
    · rw [if_neg h1]
      by_cases h2 : entry.File = ""
      · rw [if_pos h2]
        simp [h2]
      · rw [if_neg h2]
        by_cases h3 : entry.Arguments.isEmpty
        · rw [if_pos h3]
          have : entry.Arguments = [] := by simpa [List.isEmpty_iff] using h3
          simp [this]
        · rw [if_neg h3]
          have hne : entry.Arguments ≠ [] := by simpa [List.isEmpty_iff] using h3
          rw [ih]
          simp [h1, h2, hne]

theorem joinWords_cons_cons (w v : String) (ws : List String) :
    joinWords (w :: v :: ws) = w.toList ++ ' ' :: joinWords (v :: ws) := rfl

theorem backtickMatchesAux_eq_nil (l : List Char) : ∀ (fuel : Nat),
    '`' ∉ l → backtickMatchesAux fuel l = [] := by
  induction l with
  | nil => intro fuel _; cases fuel <;> rfl
  | cons c cs ih =>
    intro fuel h
    cases fuel with
    | zero => rfl
    | succ f =>
      have hc : c ≠ '`' := fun e => h (by simp [e])
      rw [backtickMatchesAux]
      rw [if_neg (by simpa using hc)]
      exact ih f (fun e => h (by simp [e]))

theorem processBacktick_id (l : List Char) (h : '`' ∉ l) :
    processBacktickSubstitution l = l := by
  unfold processBacktickSubstitution backtickMatches
  rw [backtickMatchesAux_eq_nil l l.length h]
  rfl

theorem matchElems_lit_mem (p : List RedirElem) : ∀ (l r : List Char),
    matchElems p l = some r → ∀ c, RedirElem.lit c ∈ p → c ∈ l := by
  induction p with
  | nil => intro l r _ c hc; simp at hc
  | cons e p' ih =>
    intro l r h c hc
    cases e with
    | lit x =>
      cases l with
      | nil => simp [matchElems] at h
      | cons y l' =>
        rw [show matchElems (RedirElem.lit x :: p') (y :: l') =
              (if y == x then matchElems p' l' else none) from rfl] at h
        by_cases hyx : y = x
        · subst hyx
          rw [if_pos (by simp)] at h
          rcases List.mem_cons.1 hc with hc1 | hc2
          · injection hc1 with hcl; subst hcl; simp
          · exact List.mem_cons_of_mem _ (ih _ _ h c hc2)
        · rw [if_neg (by simp [hyx])] at h
          simp at h
    | digits =>
      rw [show matchElems (RedirElem.digits :: p') l =
            (let ds := l.takeWhile isAsciiDigitCh;
             if ds.isEmpty then none else matchElems p' (l.drop ds.length)) from rfl] at h
      dsimp only at h
      by_cases hd : (l.takeWhile isAsciiDigitCh).isEmpty
      · rw [if_pos hd] at h; simp at h
      · rw [if_neg hd] at h
        have hc2 : RedirElem.lit c ∈ p' := by
          rcases List.mem_cons.1 hc with hc1 | hc2
        
          · exact absurd hc1 (by simp)
          · exact hc2
        exact List.mem_of_mem_drop (ih _ _ h c hc2)
    | nonspaces =>
      rw [show matchElems (RedirElem.nonspaces :: p') l =
            (let ns := l.takeWhile (fun c => !isRegexSpace c);
             if ns.isEmpty then none else matchElems p' (l.drop ns.length)) from rfl] at h
      dsimp only at h
      by_cases hd : (l.takeWhile (fun c => !isRegexSpace c)).isEmpty
      · rw [if_pos hd] at h; simp at h
      · rw [if_neg hd] at h
        have hc2 : RedirElem.lit c ∈ p' := by
          rcases List.mem_cons.1 hc with hc1 | hc2
          · exact absurd hc1 (by simp)
          · exact hc2
        exact List.mem_of_mem_drop (ih _ _ h c hc2)
    | eol =>
      rw [show matchElems (RedirElem.eol :: p') l =
            (if l.isEmpty then matchElems p' l else none) from rfl] at h
      by_cases hl : l.isEmpty
      · rw [if_pos hl] at h
        have hc2 : RedirElem.lit c ∈ p' := by
          rcases List.mem_cons.1 hc with hc1 | hc2
          · exact absurd hc1 (by simp)
          · exact hc2
        exact ih _ _ h c hc2
      · rw [if_neg hl] at h; simp at h

theorem redirPatterns_hasAngle : redirPatterns.all hasAngleLit = true := by decide

theorem tryMatchRedir_none (p : List RedirElem) (l : List Char)
    (hp : hasAngleLit p = true) (hgt : '>' ∉ l) (hlt : '<' ∉ l) :
    tryMatchRedir p l = none := by
  unfold tryMatchRedir
  dsimp only
  by_cases hws : (l.takeWhile isRegexSpace).isEmpty
  · rw [if_pos hws]
  · rw [if_neg hws]
    cases hm : matchElems p (l.drop (l.takeWhile isRegexSpace).length) with
    | none => rfl
    | some r =>
      exfalso
      obtain ⟨e, he, hlit⟩ := List.any_eq_true.1 hp
      have hlit2 : e = RedirElem.lit '>' ∨ e = RedirElem.lit '<' := by
        rcases e with c | _ | _ | _ <;> simp_all
      rcases hlit2 with h1 | h1
      · have : ('>' : Char) ∈ l.drop (l.takeWhile isRegexSpace).length := by
          apply matchElems_lit_mem p _ _ hm
          have : e = RedirElem.lit '>' := by simpa using h1
          rwa [this] at he
        exact hgt (List.mem_of_mem_drop this)
      · have : ('<' : Char) ∈ l.drop (l.takeWhile isRegexSpace).length := by
          apply matchElems_lit_mem p _ _ hm
          have : e = RedirElem.lit '<' := by simpa using h1
          rwa [this] at he
        exact hlt (List.mem_of_mem_drop this)

theorem applyRedirPatAux_id (p : List RedirElem) (hp : hasAngleLit p = true) :
    ∀ (fuel : Nat) (l : List Char), '>' ∉ l → '<' ∉ l →
    applyRedirPatAux p fuel l = l := by
  intro fuel
  induction fuel with
  | zero => intro l _ _; rfl
  | succ f ih =>
    intro l hgt hlt
    cases l with
    | nil => rfl
    | cons c cs =>
      rw [applyRedirPatAux]
      rw [tryMatchRedir_none p _ hp hgt hlt]
      rw [ih cs (fun e => hgt (by simp [e])) (fun e => hlt (by simp [e]))]

theorem redirFold_id (l : List Char) (hgt : '>' ∉ l) (hlt : '<' ∉ l) :
    redirPatterns.foldl applyRedirPat l = l := by
  have hgen : ∀ (ps : List (List RedirElem)), ps.all hasAngleLit = true →
      ps.foldl applyRedirPat l = l := by
    intro ps hps
    induction ps with
    | nil => rfl
    | cons p ps' ih =>
      rw [List.all_cons, Bool.and_eq_true] at hps
      rw [List.foldl_cons]
      rw [show applyRedirPat l p = l from
        applyRedirPatAux_id p hps.1 l.length l hgt hlt]
      exact ih hps.2
  exact hgen redirPatterns redirPatterns_hasAngle

theorem trimSpaceL_id (l : List Char)
    (h1 : ∀ c, l.head? = some c → ¬isUnicodeSpace c)
    (h2 : ∀ c, l.getLast? = some c → ¬isUnicodeSpace c) :
    trimSpaceL l = l := by
  cases hl : l with
  | nil => rfl
  | cons c cs =>
    subst hl
    unfold trimSpaceL
    rw [List.dropWhile_cons, if_neg (by simpa using h1 c rfl)]
    have hrev : ((c :: cs).reverse).dropWhile isUnicodeSpace = (c :: cs).reverse := by
      cases hr : (c :: cs).reverse with
      | nil => simp at hr
      | cons d ds =>
        have hd : (c :: cs).getLast? = some d := by
          rw [← List.head?_reverse, hr]
          rfl
        rw [List.dropWhile_cons, if_neg (by simpa using h2 d hd)]
    rw [hrev, List.reverse_reverse]

theorem mem_joinWords (x : Char) : ∀ (ws : List String), x ∈ joinWords ws →
    x = ' ' ∨ ∃ w ∈ ws, x ∈ w.toList := by
  intro ws
  induction ws with
  | nil => intro h; simp [joinWords] at h
  | cons w ws' ih =>
    intro h
    cases ws' with
    | nil =>
      right
      exact ⟨w, by simp, by simpa [joinWords] using h⟩
    | cons v ws'' =>
      rw [joinWords_cons_cons] at h
      rcases List.mem_append.1 h with h1 | h2
      · exact Or.inr ⟨w, by simp, h1⟩
      · rcases List.mem_cons.1 h2 with h3 | h4
        · exact Or.inl h3
        · rcases ih h4 with h5 | ⟨u, hu, hxu⟩
          · exact Or.inl h5
          · exact Or.inr ⟨u, by simp [hu], hxu⟩

theorem not_mem_joinWords (x : Char) (ws : List String) (hx : x ≠ ' ')
    (h : ∀ w ∈ ws, x ∉ w.toList) : x ∉ joinWords ws := by
  intro hmem
  rcases mem_joinWords x ws hmem with h1 | ⟨w, hw, hxw⟩
  · exact hx h1
  · exact h w hw hxw

end Yacd
namespace Yacd

theorem toList_ne_nil (w : String) (hw : w ≠ "") : w.toList ≠ [] := by
  intro h
  apply hw
  cases w with
  | mk data =>
    simp only [String.toList] at h
    subst h
    rfl

theorem joinWords_head? (w : String) (ws : List String) (hw : w ≠ "") :
    ∃ c cs, joinWords (w :: ws) = c :: cs ∧ c ∈ w.toList := by
  obtain ⟨c, cs, hc⟩ : ∃ c cs, w.toList = c :: cs := by
    cases hh : w.toList with
    | nil => exact absurd hh (toList_ne_nil w hw)
    | cons c cs => exact ⟨c, cs, rfl⟩
  have hcm : c ∈ w.toList := by rw [hc]; simp
  cases ws with
  | nil => exact ⟨c, cs, by rw [show joinWords [w] = w.toList from rfl, hc], hcm⟩
  | cons v ws' =>
    refine ⟨c, cs ++ ' ' :: joinWords (v :: ws'), ?_, hcm⟩
    rw [joinWords_cons_cons, hc]
    simp

theorem joinWords_getLast? (ws : List String) (hne : ws ≠ [])
    (hw : ∀ w ∈ ws, w ≠ "") :
    ∃ c, (joinWords ws).getLast? = some c ∧ ∃ w ∈ ws, c ∈ w.toList := by
  induction ws with
  | nil => exact absurd rfl hne
  | cons w ws' ih =>
    cases ws' with
    | nil =>
      have hwne : w ≠ "" := hw w (by simp)
      obtain ⟨c, cs, hc⟩ : ∃ c cs, w.toList.reverse = c :: cs := by
        cases hh : w.toList.reverse with
        | nil =>
          exact absurd (by simpa using congrArg List.reverse hh) (toList_ne_nil w hwne)
        | cons c cs => exact ⟨c, cs, rfl⟩
      refine ⟨c, ?_, w, by simp, ?_⟩
      · show (joinWords [w]).getLast? = some c
        rw [show joinWords [w] = w.toList from rfl, ← List.head?_reverse, hc]
        rfl
      · have : c ∈ w.toList.reverse := by rw [hc]; simp
        simpa using this
    | cons v ws'' =>
      obtain ⟨c, hc, u, hu, hcu⟩ := ih (by simp) (fun x hx => hw x (by simp [hx]))
      refine ⟨c, ?_, u, by simp [hu], hcu⟩
      rw [joinWords_cons_cons]
      rw [List.getLast?_append]
      rw [show (' ' :: joinWords (v :: ws'')).getLast? =
            (joinWords (v :: ws'')).getLast?.or (some ' ') by
        rw [show (' ' :: joinWords (v :: ws'')) = [' '] ++ joinWords (v :: ws'') from rfl,
          List.getLast?_append]
        rfl]
      rw [hc]
      rfl

theorem fieldsAux_word (w : List Char) : ∀ (t cur : List Char),
    (∀ c ∈ w, !isUnicodeSpace c) →
    fieldsAux (w ++ t) cur = fieldsAux t (w.reverse ++ cur) := by
  induction w with
  | nil => intro t cur _; simp
  | cons c w' ih =>
    intro t cur hw
    have hc : isUnicodeSpace c = false := by simpa using hw c (by simp)
    rw [List.cons_append, fieldsAux, if_neg (by simp [hc])]
    rw [ih t (c :: cur) (fun x hx => hw x (by simp [hx]))]
    simp

theorem fieldsL_joinWords : ∀ (ws : List String),
    (∀ w ∈ ws, w ≠ "" ∧ ∀ c ∈ w.toList, !isUnicodeSpace c) →
    fieldsL (joinWords ws) = ws.map String.toList := by
  have main : ∀ (ws : List String),
      (∀ w ∈ ws, w ≠ "" ∧ ∀ c ∈ w.toList, !isUnicodeSpace c) →
      fieldsAux (joinWords ws) [] = ws.map String.toList := by
    intro ws
    induction ws with
    | nil => intro _; rfl
    | cons w ws' ih =>
      intro hws
      obtain ⟨hwne, hwc⟩ := hws w (by simp)
      cases ws' with
      | nil =>
        rw [show joinWords [w] = w.toList from rfl]
        rw [show w.toList = w.toList ++ [] by simp]
        rw [fieldsAux_word _ _ _ hwc]
        rw [fieldsAux]
        rw [if_neg (by simpa using toList_ne_nil w hwne)]
        simp
      | cons v ws'' =>
        rw [joinWords_cons_cons]
        rw [show w.toList ++ ' ' :: joinWords (v :: ws'') =
              w.toList ++ (' ' :: joinWords (v :: ws'')) from rfl]
        rw [fieldsAux_word _ _ _ hwc]
        rw [fieldsAux]
        rw [if_pos (by decide)]
        rw [if_neg (by simpa using toList_ne_nil w hwne)]
        rw [ih (fun x hx => hws x (by simp [hx]))]
        simp
  intro ws hws
  exact main ws hws

theorem splitCmdAux_word (w : List Char) : ∀ (t cur : List Char) (w0 : Nat),
    (∀ c ∈ w, (c ≠ ' ' ∧ c ≠ '"' ∧ c ≠ '\'' ∧ c ≠ '\\') ∧ utf8Width c = 1) →
    splitCmdAux (w ++ t) false false cur w0 =
      splitCmdAux t false false (w.reverse ++ cur) (if w.isEmpty then w0 else 1) := by
  induction w with
  | nil => intro t cur w0 _; simp
  | cons c w' ih =>
    intro t cur w0 hw
    obtain ⟨⟨h1, h2, h3, h4⟩, h5⟩ := hw c (by simp)
    rw [List.cons_append, splitCmdAux]
    rw [if_neg (by simp), if_neg (by simp [h4]), if_neg (by simp [h2, h3]),
      if_neg (by simp [h1])]
    rw [ih t (c :: cur) (utf8Width c) (fun x hx => hw x (by simp [hx]))]
    rw [h5]
    simp

theorem splitCmdAux_joinWords : ∀ (us : List String), us ≠ [] →
    (∀ w ∈ us, w ≠ "" ∧ ∀ c ∈ w.toList,
      (c ≠ ' ' ∧ c ≠ '"' ∧ c ≠ '\'' ∧ c ≠ '\\') ∧ utf8Width c = 1) →
    ∀ (w0 : Nat), splitCmdAux (joinWords us) false false [] w0 = us.map String.toList := by
  intro us
  induction us with
  | nil => intro h _; exact absurd rfl h
  | cons w us' ih =>
    intro _ hus w0
    obtain ⟨hwne, hwc⟩ := hus w (by simp)
    cases us' with
    | nil =>
      rw [show joinWords [w] = w.toList from rfl]
      rw [show w.toList = w.toList ++ [] by simp]
      rw [splitCmdAux_word _ _ _ _ hwc]
      rw [splitCmdAux]
      rw [if_pos (by
        rw [if_neg (by simpa using toList_ne_nil w hwne)]
        simpa using toList_ne_nil w hwne)]
      simp
    | cons v us'' =>
      rw [joinWords_cons_cons]
      rw [show w.toList ++ ' ' :: joinWords (v :: us'') =
            w.toList ++ (' ' :: joinWords (v :: us'')) from rfl]
      rw [splitCmdAux_word _ _ _ _ hwc]
      rw [splitCmdAux]
      rw [if_neg (by simp), if_neg (by simp), if_neg (by simp), if_pos (by simp)]
      rw [if_neg (by simpa using toList_ne_nil w hwne)]
      rw [ih (by simp) (fun x hx => hus x (by simp [hx])) (utf8Width ' ')]
      simp

theorem string_mk_toList (w : String) : String.mk w.toList = w := by
  cases w; rfl

theorem joinWords_drop : ∀ (ws : List String) (i : Nat), i < ws.length →
    (joinWords ws).drop ((((ws.map String.toList).take i).map
        (fun w => w.length + 1)).sum) = joinWords (ws.drop i) := by
  intro ws
  induction ws with
  | nil => intro i hi; simp at hi
  | cons w ws' ih =>
    intro i hi
    cases i with
    | zero => simp
    | succ j =>
      have hj : j < ws'.length := by simpa using hi
      have hne : ws' ≠ [] := by
        intro h; rw [h] at hj; simp at hj
      obtain ⟨v, ws'', rfl⟩ : ∃ v ws'', ws' = v :: ws'' := by
        cases ws' with
        | nil => exact absurd rfl hne
        | cons v ws'' => exact ⟨v, ws'', rfl⟩
      rw [joinWords_cons_cons]
      rw [show List.map String.toList (w :: v :: ws'') =
            w.toList :: List.map String.toList (v :: ws'') from rfl]
      rw [List.take_succ_cons, List.map_cons, List.sum_cons]
      rw [show w.toList ++ ' ' :: joinWords (v :: ws'') =
            (w.toList ++ [' ']) ++ joinWords (v :: ws'') by simp]
      rw [show w.toList.length + 1 +
            (((List.map String.toList (v :: ws'')).take j).map (fun w => w.length + 1)).sum =
            (w.toList ++ [' ']).length +
            (((List.map String.toList (v :: ws'')).take j).map (fun w => w.length + 1)).sum by
        simp]
      rw [List.drop_append]
      rw [ih j hj]
      rfl

theorem findIdx?_go_first (p : List Char → Bool) : ∀ (l : List (List Char))
    (i0 i : Nat) (hi : i < l.length), p (l.get ⟨i, hi⟩) = true →
    (∀ j (hj : j < i), p (l.get ⟨j, by omega⟩) = false) →
    List.findIdx? p l i0 = some (i0 + i) := by
  intro l
  induction l with
  | nil => intro i0 i hi _ _; simp at hi
  | cons a l' ih =>
    intro i0 i hi hp hfirst
    cases i with
    | zero =>
      simp only [List.get] at hp
      rw [List.findIdx?_cons, if_pos hp]
      simp
    | succ j =>
      have ha : p a = false := by
        have := hfirst 0 (by omega)
        simpa using this
      rw [List.findIdx?_cons, if_neg (by simp [ha])]
      have := ih (i0 + 1) j (by simpa using hi)
        (by simpa using hp)
        (fun k hk => by
          have := hfirst (k + 1) (by omega)
          simpa using this)
      rw [this]
      congr 1
      omega

theorem cdChainMatch_none (l : List Char) (h : '&' ∉ l) : cdChainMatch l = none := by
  unfold cdChainMatch
  have hl1 : '&' ∉ l.drop (l.takeWhile isRegexSpace).length :=
    fun hm => h (List.mem_of_mem_drop hm)
  cases hs : stripPrefixL "cd".toList (l.drop (l.takeWhile isRegexSpace).length) with
  | none => simp only [hs, Option.bind_eq_bind, Option.none_bind]
  | some r =>
    have hs2 := hs
    rw [stripPrefixL_eq_some] at hs2
    have hr : '&' ∉ r := by
      intro hm
      exact hl1 (by rw [hs2]; exact List.mem_append_right _ hm)
    have ht : r.takeWhile (fun c => decide (c ≠ '&')) = r :=
      List.takeWhile_eq_self_iff.mpr (fun c hc => by
        simp only [decide_eq_true_eq, ne_eq]
        intro e; subst e; exact hr hc)
    simp only [hs, Option.bind_eq_bind, Option.some_bind]
    rw [ht]
    by_cases h1 : ((r.takeWhile isRegexSpace).length = 0) ∨ (r.length < 2)
    · rw [if_pos (by simpa using h1)]
    · rw [if_neg (by simpa using h1)]
      rw [List.drop_length]

theorem c6PlainChar_spec (c : Char) (h : c6PlainChar c = true) :
    isUnicodeSpace c = false ∧ c ≠ '"' ∧ c ≠ '\'' ∧ c ≠ '\\' ∧ c ≠ '`' ∧
    c ≠ '<' ∧ c ≠ '>' ∧ c ≠ '&' ∧ c ≠ ' ' ∧ utf8Width c = 1 := by
  simp only [c6PlainChar, Bool.and_eq_true, Bool.not_eq_true', beq_eq_false_iff_ne,
    ne_eq, decide_eq_true_eq] at h
  obtain ⟨⟨⟨⟨⟨⟨⟨⟨hlt, hsp⟩, h1⟩, h2⟩, h3⟩, h4⟩, h5⟩, h6⟩, h7⟩ := h
  refine ⟨hsp, h1, h2, h3, h4, h5, h6, h7, ?_, ?_⟩
  · intro e
    subst e
    simp [isUnicodeSpace] at hsp
  · unfold utf8Width
    rw [if_pos hlt]

theorem mapMk_mapToList (us : List String) :
    (us.map String.toList).map String.mk = us := by
  rw [List.map_map]
  have : (String.mk ∘ String.toList) = id := by
    funext w
    exact string_mk_toList w
  rw [this, List.map_id]

theorem removeRedirection_joinWords (ws : List String) (hne : ws ≠ [])
    (hwords : ∀ w ∈ ws, w ≠ "" ∧ ∀ c ∈ w.toList, c6PlainChar c = true) :
    removeRedirectionOperators (joinWords ws) = joinWords ws := by
  have hplain : ∀ x, x ≠ ' ' → (∀ w ∈ ws, ∀ c ∈ w.toList, c ≠ x) → x ∉ joinWords ws := by
    intro x hx hall
    exact not_mem_joinWords x ws hx (fun w hw hc => by
      exact hall w hw x hc rfl)
  have hbt : '`' ∉ joinWords ws :=
    hplain '`' (by decide) (fun w hw c hc =>
      (c6PlainChar_spec c ((hwords w hw).2 c hc)).2.2.2.2.1)
  have hgt : '>' ∉ joinWords ws :=
    hplain '>' (by decide) (fun w hw c hc =>
      (c6PlainChar_spec c ((hwords w hw).2 c hc)).2.2.2.2.2.2.1)
  have hlt : '<' ∉ joinWords ws :=
    hplain '<' (by decide) (fun w hw c hc =>
      (c6PlainChar_spec c ((hwords w hw).2 c hc)).2.2.2.2.2.1)
  unfold removeRedirectionOperators
  rw [processBacktick_id _ hbt, redirFold_id _ hgt hlt]
  obtain ⟨w0, ws', rfl⟩ : ∃ w0 ws', ws = w0 :: ws' := by
    cases ws with
    | nil => exact absurd rfl hne
    | cons w0 ws' => exact ⟨w0, ws', rfl⟩
  apply trimSpaceL_id
  · intro c hc
    obtain ⟨c0, cs0, heq, hmem⟩ := joinWords_head? w0 ws' (hwords w0 (by simp)).1
    rw [heq] at hc
    simp only [List.head?_cons, Option.some.injEq] at hc
    subst hc
    have := (c6PlainChar_spec c0 ((hwords w0 (by simp)).2 c0 hmem)).1
    simp [this]
  · intro c hc
    obtain ⟨c0, hlast, w, hw, hcw⟩ := joinWords_getLast? (w0 :: ws') (by simp)
      (fun x hx => (hwords x hx).1)
    rw [hlast] at hc
    simp only [Option.some.injEq] at hc
    subst hc
    have := (c6PlainChar_spec c0 ((hwords w hw).2 c0 hcw)).1
    simp [this]

/-! # Claim theorems -/

/-- C1: interpreting the three-line log `make: Entering directory '/p'`,
    `gcc -c -Wall main.c -o main.o`, `make: Leaving directory '/p'` with no
    base directory configured yields exactly one compilation record with
    working directory `/p`, compiler `gcc`, the six command tokens as
    argument list, source file `main.c`, output file `main.o`; afterwards
    the directory stack is empty. -/
theorem c1_scenario :
    parseMakeLog {} ["make: Entering directory '/p'",
      "gcc -c -Wall main.c -o main.o",
      "make: Leaving directory '/p'"] =
    ([⟨"/p", "gcc", ["gcc", "-c", "-Wall", "main.c", "-o", "main.o"],
        "main.c", "main.o"⟩],
     ⟨[], ["/p"]⟩) := by decide

/-- C2: a line matching the `Leaving directory` marker is always consumed as
    a directory marker and simply drops the last stack element — `dropLast`
    of the empty stack is the empty stack, so the stack never pops below
    empty, and the result is independent of the path named in the marker. -/
theorem c2_lenient_leave (st : ParserState) (line : String)
    (h : (matchDirLeave line).isSome = true) :
    handleDirectoryChange st line = (true, ⟨st.dirStack.dropLast, st.directoryHistory⟩) ∧
    (st.dirStack = [] → (handleDirectoryChange st line).2.dirStack = []) := by
  obtain ⟨d, hd⟩ : ∃ d, matchDirLeave line = some d := by
    cases hh : matchDirLeave line with
    | none => rw [hh] at h; simp at h
    | some d => exact ⟨d, rfl⟩
  obtain ⟨d0, hd0⟩ : ∃ d0, matchMakeDir "Leaving" line.toList = some d0 := by
    unfold matchDirLeave at hd
    cases hh : matchMakeDir "Leaving" line.toList with
    | none => rw [hh] at hd; simp at hd
    | some d0 => exact ⟨d0, rfl⟩
  have henter : matchDirEnter line = none := by
    unfold matchDirEnter
    rw [matchMakeDir_excl _ _ hd0]
    rfl
  have hmain : handleDirectoryChange st line =
      (true, ⟨st.dirStack.dropLast, st.directoryHistory⟩) := by
    unfold handleDirectoryChange
    rw [henter, hd]
  refine ⟨hmain, fun hnil => ?_⟩
  rw [hmain, hnil]
  rfl

/-- Witness for C2 at a concrete mismatched `Leaving` marker on an empty
    stack: consumed, and the stack stays empty. -/
theorem c2_witness :
    (matchDirLeave "make[2]: Leaving directory '/p'").isSome = true ∧
    handleDirectoryChange ⟨[], []⟩ "make[2]: Leaving directory '/p'" =
      (true, ⟨[], []⟩) :=
  ⟨by decide,
   (c2_lenient_leave ⟨[], []⟩ "make[2]: Leaving directory '/p'" (by decide)).1⟩

/-- C3: every produced record's source file is the last argument token whose
    extension is a recognized source extension (`isSourceFile` embeds the
    case-insensitive `.c .cpp .cc .cxx .c++ .s .S .asm` check); some token
    matches, and the source-file field is never empty — a line without a
    matching token yields no record at all. -/
theorem c3_source_is_last_match (st : ParserState) (line : String) (e : MakeLogEntry)
    (h : parseCompileCommand st line = some e) :
    e.SourceFile = (e.Args.filter (fun a => isSourceFile a)).getLastD "" ∧
    e.Args.filter (fun a => isSourceFile a) ≠ [] ∧
    e.SourceFile ≠ "" := by
  obtain ⟨h1, _, h3, _, _⟩ := parseCompileCommand_shape st line e h
  have hsrc := extractFilesGo_src e.Args "" ""
  refine ⟨by rw [h1]; exact hsrc, ?_, h3⟩
  intro hempty
  apply h3
  rw [h1]
  unfold extractFiles at *
  rw [hsrc, hempty]
  rfl

/-- Witness for C3: a two-source invocation, where the later `b.c` wins. -/
theorem c3_witness :
    parseCompileCommand ⟨[], []⟩ "gcc a.c b.c -o out.o" =
      some ⟨"", "gcc", ["gcc", "a.c", "b.c", "-o", "out.o"], "b.c", "out.o"⟩ ∧
    ("b.c" : String) =
      ((["gcc", "a.c", "b.c", "-o", "out.o"].filter (fun a => isSourceFile a)).getLastD "") :=
  ⟨by decide,
   (c3_source_is_last_match ⟨[], []⟩ "gcc a.c b.c -o out.o"
      ⟨"", "gcc", ["gcc", "a.c", "b.c", "-o", "out.o"], "b.c", "out.o"⟩ (by decide)).1⟩

/-- C4: for a produced record, the output file is empty when no `-o` token
    occurs in its argument list, and equals the token following the `-o`
    when the record contains exactly one `-o` with a follower. -/
theorem c4_output_follows_dash_o (st : ParserState) (line : String) (e : MakeLogEntry)
    (h : parseCompileCommand st line = some e) :
    ("-o" ∉ e.Args → e.OutputFile = "") ∧
    (∀ i w, e.Args.count "-o" = 1 → e.Args[i]? = some "-o" → e.Args[i+1]? = some w →
      e.OutputFile = w) := by
  obtain ⟨_, h2, _, _, _⟩ := parseCompileCommand_shape st line e h
  constructor
  · intro hnm
    rw [h2]
    exact extractFilesGo_out_notMem e.Args "" "" hnm
  · intro i w hc hi hw
    rw [h2]
    exact extractFilesGo_out_unique e.Args "" "" i hc hi w hw

/-- Witness for C4 on a concrete `-o out.o` invocation. -/
theorem c4_witness :
    parseCompileCommand ⟨[], []⟩ "gcc -c a.c -o out.o" =
      some ⟨"", "gcc", ["gcc", "-c", "a.c", "-o", "out.o"], "a.c", "out.o"⟩ ∧
    (⟨"", "gcc", ["gcc", "-c", "a.c", "-o", "out.o"], "a.c", "out.o"⟩ :
      MakeLogEntry).OutputFile = "out.o" :=
  ⟨by decide,
   (c4_output_follows_dash_o ⟨[], []⟩ "gcc -c a.c -o out.o"
      ⟨"", "gcc", ["gcc", "-c", "a.c", "-o", "out.o"], "a.c", "out.o"⟩ (by decide)).2
     3 "out.o" (by decide) (by decide) (by decide)⟩

/-- C5: processing `cd src && gcc -c util.c -o util.o` with stack top `/t`
    yields a record with working directory `/t/src` (the relative `cd`
    target is joined onto the stack top), and the persistent state is
    unchanged. -/
theorem c5_scenario :
    processLine ⟨["/t"], []⟩ "cd src && gcc -c util.c -o util.o" =
    (⟨["/t"], []⟩,
     some ⟨"/t/src", "gcc", ["gcc", "-c", "util.c", "-o", "util.o"],
        "util.c", "util.o"⟩) := by decide

/-- C7: validation succeeds exactly when the database is non-empty and every
    entry has a non-empty directory, file, and argument list — for any
    filesystem contents `fileExists` whatsoever, so missing source files
    never cause an error; the empty database fails with the empty-database
    condition. -/
theorem c7_validation (fileExists : String → Bool) (compileDB : List CompilationEntry) :
    ((∃ n, validateCompileDB fileExists compileDB = .ok n) ↔
      (compileDB ≠ [] ∧
        ∀ e ∈ compileDB, e.Directory ≠ "" ∧ e.File ≠ "" ∧ e.Arguments ≠ [])) ∧
    validateCompileDB fileExists [] = .error "compilation database is empty" := by
  constructor
  · unfold validateCompileDB
    cases compileDB with
    | nil => simp
    | cons entry rest =>
      rw [if_neg (by simp)]
      rw [validateCompileDBGo_ok_iff]
      simp
  · rfl

/-- C9: the written bytes are the indented JSON document plus exactly one
    trailing newline (the document itself never ends in a newline), and for
    a non-empty database the document lists the entries in input order,
    separated by `,\n`, between the array brackets. The two-space indent is
    fixed in `entryJson`/`ind`. -/
theorem c9_serialization (compileDB : List CompilationEntry) :
    writeCompilationDatabaseBytes compileDB = marshalIndentDB compileDB ++ ['\n'] ∧
    (marshalIndentDB compileDB).getLast? ≠ some '\n' ∧
    (compileDB ≠ [] → marshalIndentDB compileDB =
      '[' :: '\n' ::
        (List.intercalate [',', '\n'] (compileDB.map entryJson) ++ ['\n', ']'])) := by
  refine ⟨rfl, ?_, ?_⟩
  · cases compileDB with
    | nil => decide
    | cons e rest =>
      show (('[' :: '\n' ::
        (List.intercalate [',', '\n'] ((e :: rest).map entryJson) ++ ['\n', ']']))).getLast? ≠
          some '\n'
      rw [show ('[' :: '\n' ::
        (List.intercalate [',', '\n'] ((e :: rest).map entryJson) ++ ['\n', ']'])) =
          ('[' :: '\n' :: List.intercalate [',', '\n'] ((e :: rest).map entryJson)) ++
            ['\n', ']'] by simp]
      rw [List.getLast?_append]
      simp
  · intro h
    cases compileDB with
    | nil => exact absurd rfl h
    | cons e rest => rfl

/-- C10: when `-o` is the final token (and no other `-o` occurs), the guarded
    lookahead assigns nothing: the output file is empty, and source-file
    extraction still selects the last recognized token. (`extractFiles` is
    total by construction; the guard makes the out-of-bounds read
    unrepresentable.) -/
theorem c10_trailing_dash_o (args : List String)
    (hlast : args.getLast? = some "-o") (hnm : "-o" ∉ args.dropLast) :
    extractFiles args = ((args.filter (fun a => isSourceFile a)).getLastD "", "") := by
  unfold extractFiles
  have h1 := extractFilesGo_src args "" ""
  have h2 := extractFilesGo_out_trailing args "" "" hlast hnm
  exact Prod.ext h1 h2

/-- Witness for C10 on `gcc -c a.c -o` (dangling `-o`). -/
theorem c10_witness :
    (["gcc", "-c", "a.c", "-o"] : List String).getLast? = some "-o" ∧
    extractFiles ["gcc", "-c", "a.c", "-o"] = ("a.c", "") :=
  ⟨by decide,
   by
    have := c10_trailing_dash_o ["gcc", "-c", "a.c", "-o"] (by decide) (by decide)
    simpa using this⟩


/-- C6 counterexample: for the line `purify \tgcc -c main.c` the words are
    `purify gcc -c main.c` and the first word matching the compiler pattern
    is `gcc`, yet the produced record's argument list is
    `["\tgcc", "-c", "main.c"]` — the reconstructed byte offset assumes a
    single space between words, so the tab survives into `args[0]` and the
    claimed list `["gcc", "-c", "main.c"]` is not produced. -/
theorem c6_counterexample :
    ((fieldsL "purify \tgcc -c main.c".toList).map String.mk =
      ["purify", "gcc", "-c", "main.c"]) ∧
    compilerMatchL "purify".toList = false ∧
    compilerMatchL "gcc".toList = true ∧
    (parseCompileCommand ⟨[], []⟩ "purify \tgcc -c main.c").map (fun e => e.Args) =
      some ["\tgcc", "-c", "main.c"] ∧
    (parseCompileCommand ⟨[], []⟩ "purify \tgcc -c main.c").map (fun e => e.Args) ≠
      some ["gcc", "-c", "main.c"] := by decide

/-- C6 (amended): for a command line made of nonempty words separated by
    single spaces throughout, each word using only plain ASCII characters
    (no whitespace, quote, backslash, backtick, redirection, or `&`
    characters, every code point below 128), every produced record's
    argument list is exactly the words from the first compiler-pattern word
    onward, with that word as `args[0]` (the compiler field). -/
theorem c6_amended_wrapper_args (ws : List String) (i : Nat) (hi : i < ws.length)
    (hwords : ∀ w ∈ ws, w ≠ "" ∧ ∀ c ∈ w.toList, c6PlainChar c = true)
    (hmatch : compilerMatchL (ws.get ⟨i, hi⟩).toList = true)
    (hfirst : ∀ j, j < i → ∀ (hj : j < ws.length),
      compilerMatchL (ws.get ⟨j, hj⟩).toList = false)
    (st : ParserState) (e : MakeLogEntry)
    (h : parseCompileCommand st (String.mk (joinWords ws)) = some e) :
    e.Args = ws.drop i ∧ e.Compiler = (ws.drop i).headD "" := by
  have hne : ws ≠ [] := by intro hh; rw [hh] at hi; simp at hi
  unfold parseCompileCommand at h
  by_cases hecho : "echo ".toList.isPrefixOf (trimSpaceL (String.mk (joinWords ws)).toList)
  · rw [if_pos hecho] at h; simp at h
  · rw [if_neg hecho] at h
    by_cases hcm : compilerMatchL (String.mk (joinWords ws)).toList
    · rw [if_pos hcm] at h
      have hamp : '&' ∉ joinWords ws :=
        not_mem_joinWords '&' ws (by decide) (fun w hw hc =>
          (c6PlainChar_spec '&' ((hwords w hw).2 '&' hc)).2.2.2.2.2.2.2.1 rfl)
      have hchain : parseShellCommandChain st (String.mk (joinWords ws)).toList = none := by
        unfold parseShellCommandChain
        rw [show (String.mk (joinWords ws)).toList = joinWords ws from rfl]
        rw [cdChainMatch_none _ hamp]
        rfl
      rw [hchain] at h
      unfold parseDirectCompileCommand parseCompilerCommandOnly at h
      dsimp only at h
      rw [show (String.mk (joinWords ws)).toList = joinWords ws from rfl] at h
      rw [removeRedirection_joinWords ws hne hwords] at h
      have hfields : fieldsL (joinWords ws) = ws.map String.toList :=
        fieldsL_joinWords ws (fun w hw =>
          ⟨(hwords w hw).1, fun c hc => by
            simp [(c6PlainChar_spec c ((hwords w hw).2 c hc)).1]⟩)
      have hidx : findCompilerStartIndex (joinWords ws) =
          some ((((ws.map String.toList).take i).map (fun w => w.length + 1)).sum) := by
        unfold findCompilerStartIndex
        dsimp only
        rw [hfields]
        have hp : (fun w => compilerMatchL w) ((ws.map String.toList).get
            ⟨i, by simpa using hi⟩) = true := by
          rw [List.get_map]
          exact hmatch
        have hf : ∀ j (hj : j < i), (fun w => compilerMatchL w)
            ((ws.map String.toList).get ⟨j, by simp; omega⟩) = false := by
          intro j hj
          rw [List.get_map]
          exact hfirst j hj _
        rw [findIdx?_go_first (fun w => compilerMatchL w) (ws.map String.toList)
          0 i (by simpa using hi) hp hf]
        simp
      rw [hidx] at h
      simp only [Option.bind_eq_bind, Option.some_bind] at h
      rw [joinWords_drop ws i hi] at h
      have hdropne : ws.drop i ≠ [] := by
        intro hh
        have := List.length_drop i ws
        rw [hh] at this
        simp at this
        omega
      have hsplit : splitCommandLine (joinWords (ws.drop i)) = ws.drop i := by
        unfold splitCommandLine
        rw [splitCmdAux_joinWords (ws.drop i) hdropne (fun w hw => by
          have hw2 := hwords w (List.mem_of_mem_drop hw)
          refine ⟨hw2.1, fun c hc => ?_⟩
          have hs := c6PlainChar_spec c (hw2.2 c hc)
          exact ⟨⟨hs.2.2.2.2.2.2.2.2.1, hs.2.1, hs.2.2.1, hs.2.2.2.1⟩,
            hs.2.2.2.2.2.2.2.2.2⟩) 0]
        exact mapMk_mapToList (ws.drop i)
      rw [hsplit] at h
      obtain ⟨w0, us1, hus⟩ : ∃ w0 us1, ws.drop i = w0 :: us1 := by
        cases hd : ws.drop i with
        | nil => exact absurd hd hdropne
        | cons w0 us1 => exact ⟨w0, us1, rfl⟩
      rw [hus] at h
      dsimp only at h
      by_cases hsrc : (extractFiles (w0 :: us1)).1 = ""
      · rw [if_pos hsrc] at h; simp at h
      · rw [if_neg hsrc] at h
        simp only [Option.bind_eq_bind, Option.some_bind, Option.some.injEq] at h
        rw [hus, ← h]
        exact ⟨rfl, rfl⟩
    · rw [if_neg hcm] at h; simp at h

/-- Witness for the amended C6: wrapper `wrap` before `gcc -c a.c`. -/
theorem c6_witness :
    parseCompileCommand ⟨[], []⟩ (String.mk (joinWords ["wrap", "gcc", "-c", "a.c"])) =
      some ⟨"", "gcc", ["gcc", "-c", "a.c"], "a.c", ""⟩ ∧
    (⟨"", "gcc", ["gcc", "-c", "a.c"], "a.c", ""⟩ : MakeLogEntry).Args =
      ["wrap", "gcc", "-c", "a.c"].drop 1 :=
  ⟨by decide,
   (c6_amended_wrapper_args ["wrap", "gcc", "-c", "a.c"] 1 (by decide)
      (by decide) (by decide)
      (fun j hj hjlen => by
        have hj0 : j = 0 := by omega
        subst hj0
        exact (by decide :
          compilerMatchL ((["wrap", "gcc", "-c", "a.c"] : List String).get
            ⟨0, Nat.succ_pos 3⟩).toList = false))
      ⟨[], []⟩ ⟨"", "gcc", ["gcc", "-c", "a.c"], "a.c", ""⟩ (by decide)).1⟩


theorem jSkipWs_cons_not {c : Char} (l : List Char) (h : isJsonWs c = false) :
    jSkipWs (c :: l) = c :: l := by
  rw [jSkipWs, h]
  simp

theorem jSkipWs_append_ws (ws : List Char) (h : ∀ c ∈ ws, isJsonWs c = true) :
    ∀ l, jSkipWs (ws ++ l) = jSkipWs l := by
  induction ws with
  | nil => intro l; simp
  | cons c cs ih =>
    intro l
    rw [List.cons_append, jSkipWs, h c (by simp)]
    simp only [if_true]
    exact ih (fun x hx => h x (by simp [hx])) l

theorem ind_ws (n : Nat) : ∀ c ∈ ind n, isJsonWs c = true := by
  intro c hc
  rw [List.eq_of_mem_replicate hc]
  rfl

theorem jHexVal_hexDigitLC (k : Nat) (hk : k < 16) :
    jHexVal (hexDigitLC k) = some k := by
  interval_cases k <;> decide

theorem jHex4_digits (n : Nat) (hn : n < 65536) :
    jHex4 (hexDigitLC (n / 4096 % 16)) (hexDigitLC (n / 256 % 16))
      (hexDigitLC (n / 16 % 16)) (hexDigitLC (n % 16)) = some n := by
  unfold jHex4
  rw [jHexVal_hexDigitLC _ (by omega), jHexVal_hexDigitLC _ (by omega),
    jHexVal_hexDigitLC _ (by omega), jHexVal_hexDigitLC _ (by omega)]
  simp only [Option.bind_eq_bind, Option.some_bind, Option.some.injEq]
  omega

theorem jStrBody_cons_esc (e ch : Char) (he : ¬e = 'u') (hu : jUnescape e = some ch)
    (acc t : List Char) :
    jStrBody acc ('\\' :: e :: t) = jStrBody (ch :: acc) t := by
  rw [jStrBody.eq_def]
  dsimp only
  rw [if_neg (show ¬('\\' : Char) = '"' by decide), if_pos rfl, if_neg he, hu]

theorem jStrBody_cons_lit (c : Char) (h1 : ¬c = '"') (h2 : ¬c = '\\')
    (h3 : ¬c.toNat < 0x20) (acc t : List Char) :
    jStrBody acc (c :: t) = jStrBody (c :: acc) t := by
  rw [jStrBody.eq_def]
  dsimp only
  rw [if_neg h1, if_neg h2, if_neg h3]

theorem jStrBody_cons_u (d1 d2 d3 d4 : Char) (acc t : List Char) :
    jStrBody acc ('\\' :: 'u' :: d1 :: d2 :: d3 :: d4 :: t) =
      (match jHex4 d1 d2 d3 d4 with
       | some n => jStrBody (Char.ofNat n :: acc) t
       | none => none) := by
  rw [jStrBody.eq_def]
  dsimp only
  rw [if_neg (show ¬('\\' : Char) = '"' by decide), if_pos rfl, if_pos rfl]

theorem jStrBody_escChar (c : Char) (acc t : List Char) :
    jStrBody acc (goEscChar c ++ t) = jStrBody (c :: acc) t := by
  unfold goEscChar
  by_cases h1 : c = '"'
  · subst h1
    rw [if_pos rfl]
    exact jStrBody_cons_esc '"' '"' (by decide) (by decide) acc t
  · rw [if_neg h1]
    by_cases h2 : c = '\\'
    · subst h2
      rw [if_pos rfl]
      exact jStrBody_cons_esc '\\' '\\' (by decide) (by decide) acc t
    · rw [if_neg h2]
      by_cases h3 : c = '\n'
      · subst h3
        rw [if_pos rfl]
        exact jStrBody_cons_esc 'n' '\n' (by decide) (by decide) acc t
      · rw [if_neg h3]
        by_cases h4 : c = '\r'
        · subst h4
          rw [if_pos rfl]
          exact jStrBody_cons_esc 'r' '\r' (by decide) (by decide) acc t
        · rw [if_neg h4]
          by_cases h5 : c = '\t'
          · subst h5
            rw [if_pos rfl]
            exact jStrBody_cons_esc 't' '\t' (by decide) (by decide) acc t
          · rw [if_neg h5]
            by_cases h6 : c = '<' ∨ c = '>' ∨ c = '&' ∨ c.toNat < 0x20 ∨
                c.toNat = 0x2028 ∨ c.toNat = 0x2029
            · rw [if_pos h6]
              have hlt : c.toNat < 65536 := by
                rcases h6 with h | h | h | h | h | h
                · subst h; decide
                · subst h; decide
                · subst h; decide
                · omega
                · omega
                · omega
              rw [List.cons_append, List.cons_append, List.cons_append,
                List.cons_append, List.cons_append, List.cons_append, List.nil_append]
              rw [jStrBody_cons_u]
              rw [jHex4_digits c.toNat hlt]
              dsimp only
              rw [Char.ofNat_toNat]
            · rw [if_neg h6]
              have hctl : ¬(c.toNat < 0x20) := fun hlt =>
                h6 (Or.inr (Or.inr (Or.inr (Or.inl hlt))))
              rw [List.cons_append, List.nil_append]
              exact jStrBody_cons_lit c h1 h2 hctl acc t

theorem jStrBody_escBody (l : List Char) : ∀ (acc t : List Char),
    jStrBody acc (l.flatMap goEscChar ++ '"' :: t) =
      some (String.mk (acc.reverse ++ l), t) := by
  induction l with
  | nil =>
    intro acc t
    rw [show ([] : List Char).flatMap goEscChar = [] from rfl]
    rw [List.nil_append, jStrBody.eq_def]
    dsimp only
    rw [if_pos rfl]
    simp
  | cons c cs ih =>
    intro acc t
    rw [show (c :: cs).flatMap goEscChar = goEscChar c ++ cs.flatMap goEscChar from by
      simp]
    rw [List.append_assoc, jStrBody_escChar, ih]
    simp

theorem jParseVal_jStr (s : String) (fuel : Nat) (pre : List Char)
    (hpre : ∀ c ∈ pre, isJsonWs c = true) (t : List Char) :
    jParseVal (fuel + 1) (pre ++ jStr s ++ t) = some (.jstr s, t) := by
  rw [jParseVal]
  rw [List.append_assoc, jSkipWs_append_ws pre hpre]
  rw [show jStr s ++ t = '"' :: (s.toList.flatMap goEscChar ++ ('"' :: t)) from by
    rw [jStr]; simp]
  rw [jSkipWs_cons_not _ (by decide)]
  dsimp only
  rw [if_pos rfl]
  rw [jStrBody_escBody]
  simp [string_mk_toList]

theorem interc_cons₂ (s a b : List Char) (l : List (List Char)) :
    List.intercalate s (a :: b :: l) = a ++ s ++ List.intercalate s (b :: l) := by
  simp [List.intercalate, List.intersperse]

theorem jParseElems_render {α : Type} (render : α → List Char) (jv : α → JVal)
    (need : α → Nat) :
    ∀ (xs : List α),
    (∀ x ∈ xs, ∀ (fuel : Nat), need x ≤ fuel → ∀ (pre : List Char),
      (∀ c ∈ pre, isJsonWs c = true) → ∀ (t : List Char),
      jParseVal fuel (pre ++ render x ++ t) = some (jv x, t)) →
    xs ≠ [] → ∀ (fuel : Nat),
      (xs.map (fun x => need x + 1)).sum ≤ fuel →
      ∀ (pre : List Char), (∀ c ∈ pre, isJsonWs c = true) →
      ∀ (close : List Char), (∀ c ∈ close, isJsonWs c = true) →
      ∀ (t : List Char),
      jParseElems fuel (pre ++ List.intercalate [',', '\n'] (xs.map render) ++
        (close ++ (']' :: t))) = some (xs.map jv, t) := by
  intro xs
  induction xs with
  | nil => intro _ hne; exact absurd rfl hne
  | cons x rest ih =>
    intro helem _ fuel hfuel pre hpre close hclose t
    have hx1 : need x + 1 ≤ fuel := by
      have : (List.map (fun x => need x + 1) (x :: rest)).sum =
          (need x + 1) + (List.map (fun x => need x + 1) rest).sum := by simp
      omega
    obtain ⟨f, rfl⟩ : ∃ f, fuel = f + 1 := ⟨fuel - 1, by omega⟩
    have hxf : need x ≤ f := by omega
    rw [jParseElems]
    cases rest with
    | nil =>
      rw [show List.intercalate [',', '\n'] ((x :: []).map render) = render x from by
        simp [List.intercalate]]
      rw [show pre ++ render x ++ (close ++ (']' :: t)) =
            pre ++ render x ++ (close ++ (']' :: t)) from rfl]
      rw [helem x (by simp) f hxf pre hpre (close ++ (']' :: t))]
      simp only [Option.bind_eq_bind, Option.some_bind]
      rw [jSkipWs_append_ws close hclose, jSkipWs_cons_not _ (by decide)]
      dsimp only
      rw [if_neg (by decide), if_pos rfl]
      simp
    | cons y rest' =>
      rw [show (x :: y :: rest').map render = render x :: render y :: rest'.map render
        from rfl]
      rw [interc_cons₂]
      rw [show pre ++ (render x ++ [',', '\n'] ++
            List.intercalate [',', '\n'] (render y :: rest'.map render)) ++
            (close ++ (']' :: t)) =
          pre ++ render x ++ (',' :: '\n' ::
            (List.intercalate [',', '\n'] (render y :: rest'.map render) ++
              (close ++ (']' :: t)))) from by simp]
      rw [helem x (by simp) f hxf pre hpre]
      simp only [Option.bind_eq_bind, Option.some_bind]
      rw [jSkipWs_cons_not _ (by decide)]
      dsimp only
      rw [if_pos rfl]
      have hsum : (List.map (fun x => need x + 1) (y :: rest')).sum ≤ f := by
        have : (List.map (fun x => need x + 1) (x :: y :: rest')).sum =
            (need x + 1) + (List.map (fun x => need x + 1) (y :: rest')).sum := by simp
        omega
      have := ih (fun z hz => helem z (by simp [hz])) (by simp) f hsum
        ['\n'] (by decide) close hclose t
      rw [show '\n' :: (List.intercalate [',', '\n'] (render y :: rest'.map render) ++
            (close ++ (']' :: t))) =
          ['\n'] ++ List.intercalate [',', '\n'] ((y :: rest').map render) ++
            (close ++ (']' :: t)) from by simp]
      rw [this]
      rfl

theorem jParseVal_argsJson (args : List String) (hne : args ≠ []) (f : Nat)
    (hf : 2 * args.length + 1 ≤ f) (pre : List Char)
    (hpre : ∀ c ∈ pre, isJsonWs c = true) (t : List Char) :
    jParseVal (f + 1) (pre ++ argsJson args ++ t) =
      some (.jarr (args.map JVal.jstr), t) := by
  obtain ⟨a0, args', rfl⟩ : ∃ a0 args', args = a0 :: args' := by
    cases args with
    | nil => exact absurd rfl hne
    | cons a0 args' => exact ⟨a0, args', rfl⟩
  rw [jParseVal]
  rw [show pre ++ argsJson (a0 :: args') ++ t =
      pre ++ '[' :: ('\n' ::
        (List.intercalate [',', '\n'] ((a0 :: args').map (fun a => ind 3 ++ jStr a)) ++
          (('\n' :: ind 2) ++ (']' :: t)))) from by
    rw [argsJson]; simp]
  rw [jSkipWs_append_ws pre hpre, jSkipWs_cons_not _ (by decide)]
  dsimp only
  rw [if_neg (by decide), if_pos rfl]
  obtain ⟨rest, hrest⟩ : ∃ R,
      List.intercalate [',', '\n'] ((a0 :: args').map (fun a => ind 3 ++ jStr a)) =
        (ind 3 ++ jStr a0) ++ R := by
    cases args' with
    | nil => exact ⟨[], by simp [List.intercalate]⟩
    | cons b args'' =>
      refine ⟨[',', '\n'] ++
        List.intercalate [',', '\n'] ((b :: args'').map (fun a => ind 3 ++ jStr a)), ?_⟩
      rw [List.map_cons, List.map_cons, interc_cons₂]
      simp
  have hskip : jSkipWs ('\n' :: (List.intercalate [',', '\n']
        ((a0 :: args').map (fun a => ind 3 ++ jStr a)) ++ (('\n' :: ind 2) ++ (']' :: t)))) =
      '"' :: ((a0.toList.flatMap goEscChar ++ ['"']) ++
        (rest ++ (('\n' :: ind 2) ++ (']' :: t)))) := by
    rw [hrest]
    rw [show '\n' :: ((ind 3 ++ jStr a0 ++ rest) ++ (('\n' :: ind 2) ++ (']' :: t))) =
        ('\n' :: ind 3) ++ ('"' :: ((a0.toList.flatMap goEscChar ++ ['"']) ++
          (rest ++ (('\n' :: ind 2) ++ (']' :: t))))) from by
      rw [jStr]; simp]
    rw [jSkipWs_append_ws ('\n' :: ind 3) (by
      intro c hc
      rcases List.mem_cons.1 hc with h | h
      · subst h; rfl
      · exact ind_ws 3 c h)]
    rw [jSkipWs_cons_not _ (by decide)]
  rw [hskip]
  dsimp only
  rw [if_neg (by decide)]
  have := jParseElems_render (fun a => ind 3 ++ jStr a) JVal.jstr (fun _ => 1)
    (a0 :: args')
    (fun a _ fuel hfa pre2 hpre2 t2 => by
      have hfa2 : 1 ≤ fuel := hfa
      obtain ⟨f2, rfl⟩ : ∃ f2, fuel = f2 + 1 := ⟨fuel - 1, by omega⟩
      rw [show pre2 ++ (ind 3 ++ jStr a) ++ t2 = (pre2 ++ ind 3) ++ jStr a ++ t2 from by
        simp]
      exact jParseVal_jStr a f2 (pre2 ++ ind 3) (by
        intro c hc
        rcases List.mem_append.1 hc with h | h
        · exact hpre2 c h
        · exact ind_ws 3 c h) t2)
    (by simp) f
    (by
      have hsum2 : ∀ (us : List String),
          (us.map (fun _ => (1 : Nat) + 1)).sum = 2 * us.length := by
        intro us
        induction us with
        | nil => rfl
        | cons _ _ ih =>
          simp only [List.map_cons, List.sum_cons, ih, List.length_cons]
          omega
      rw [hsum2 (a0 :: args')]
      omega)
    ['\n'] (by decide) ('\n' :: ind 2) (by
      intro c hc
      rcases List.mem_cons.1 hc with h | h
      · subst h; rfl
      · exact ind_ws 2 c h) t
  rw [show (['\n'] : List Char) ++ List.intercalate [',', '\n']
        ((a0 :: args').map (fun a => ind 3 ++ jStr a)) ++ (('\n' :: ind 2) ++ (']' :: t)) =
      '\n' :: (List.intercalate [',', '\n']
        ((a0 :: args').map (fun a => ind 3 ++ jStr a)) ++ (('\n' :: ind 2) ++ (']' :: t)))
    from by simp] at this
  rw [this]
  rfl

theorem jParseVal_fv (v : FieldVal) (hgood : fvGood v) (fuel : Nat)
    (hf : fvFuel v ≤ fuel) (pre : List Char)
    (hpre : ∀ c ∈ pre, isJsonWs c = true) (t : List Char) :
    jParseVal fuel (pre ++ fvText v ++ t) = some (fvJVal v, t) := by
  cases v with
  | fstr s =>
    obtain ⟨f, rfl⟩ : ∃ f, fuel = f + 1 := ⟨fuel - 1, by
      simp [fvFuel] at hf; omega⟩
    exact jParseVal_jStr s f pre hpre t
  | fargs args =>
    obtain ⟨f, rfl⟩ : ∃ f, fuel = f + 1 := ⟨fuel - 1, by
      simp [fvFuel] at hf; omega⟩
    have hf2 : 2 * args.length + 1 ≤ f := by
      simp [fvFuel] at hf; omega
    exact jParseVal_argsJson args hgood f hf2 pre hpre t

theorem jParseMembers_render :
    ∀ (items : List (String × FieldVal)),
    (∀ it ∈ items, fvGood it.2) →
    items ≠ [] → ∀ (fuel : Nat),
      (items.map (fun it => fvFuel it.2 + 1)).sum ≤ fuel →
      ∀ (pre : List Char), (∀ c ∈ pre, isJsonWs c = true) →
      ∀ (close : List Char), (∀ c ∈ close, isJsonWs c = true) →
      ∀ (t : List Char),
      jParseMembers fuel (pre ++ List.intercalate [',', '\n'] (items.map renderMember) ++
        (close ++ ('}' :: t))) =
        some (items.map (fun it => (it.1, fvJVal it.2)), t) := by
  intro items
  induction items with
  | nil => intro _ hne; exact absurd rfl hne
  | cons it rest ih =>
    intro hgood _ fuel hfuel pre hpre close hclose t
    have hx1 : fvFuel it.2 + 1 ≤ fuel := by
      have : (List.map (fun it => fvFuel it.2 + 1) (it :: rest)).sum =
          (fvFuel it.2 + 1) + (List.map (fun it => fvFuel it.2 + 1) rest).sum := by simp
      omega
    obtain ⟨f, rfl⟩ : ∃ f, fuel = f + 1 := ⟨fuel - 1, by omega⟩
    have hxf : fvFuel it.2 ≤ f := by omega
    rw [jParseMembers]
    obtain ⟨restR, hrestR⟩ : ∃ R,
        List.intercalate [',', '\n'] ((it :: rest).map renderMember) =
          renderMember it ++ R ∧
          ((rest = [] ∧ R = []) ∨
           (rest ≠ [] ∧ R = ',' :: '\n' ::
              List.intercalate [',', '\n'] (rest.map renderMember))) := by
      cases rest with
      | nil => exact ⟨[], by simp [List.intercalate], Or.inl ⟨rfl, rfl⟩⟩
      | cons y rest' =>
        refine ⟨',' :: '\n' ::
          List.intercalate [',', '\n'] ((y :: rest').map renderMember), ?_, Or.inr ⟨by simp, rfl⟩⟩
        rw [List.map_cons, List.map_cons, interc_cons₂]
        simp
    obtain ⟨hR, hcase⟩ := hrestR
    rw [hR]
    rw [show pre ++ (renderMember it ++ restR) ++ (close ++ ('}' :: t)) =
        (pre ++ ind 2) ++ ('"' :: ((it.1.toList.flatMap goEscChar) ++
          ('"' :: (':' :: ' ' :: (fvText it.2 ++ (restR ++ (close ++ ('}' :: t)))))))) from by
      rw [renderMember, memberJson, jStr]
      simp]
    rw [jSkipWs_append_ws (pre ++ ind 2) (by
      intro c hc
      rcases List.mem_append.1 hc with h | h
      · exact hpre c h
      · exact ind_ws 2 c h)]
    rw [jSkipWs_cons_not _ (by decide)]
    dsimp only
    rw [if_pos rfl]
    rw [jStrBody_escBody]
    simp only [Option.bind_eq_bind, Option.some_bind, List.reverse_nil, List.nil_append]
    rw [string_mk_toList]
    rw [jSkipWs_cons_not _ (by decide)]
    dsimp only
    rw [if_pos rfl]
    rw [show (' ' :: (fvText it.2 ++ (restR ++ (close ++ ('}' :: t))))) =
        [' '] ++ fvText it.2 ++ (restR ++ (close ++ ('}' :: t))) from by simp]
    rw [jParseVal_fv it.2 (hgood it (by simp)) f hxf [' '] (by decide)]
    simp only [Option.bind_eq_bind, Option.some_bind]
    rcases hcase with ⟨hrest0, hR0⟩ | ⟨hrestne, hR0⟩
    · subst hR0
      rw [List.nil_append, jSkipWs_append_ws close hclose, jSkipWs_cons_not _ (by decide)]
      dsimp only
      rw [if_neg (by decide), if_pos rfl]
      subst hrest0
      simp
    · subst hR0
      rw [show (',' :: '\n' :: List.intercalate [',', '\n'] (rest.map renderMember)) ++
            (close ++ ('}' :: t)) =
          ',' :: ('\n' :: (List.intercalate [',', '\n'] (rest.map renderMember) ++
            (close ++ ('}' :: t)))) from by simp]
      rw [jSkipWs_cons_not _ (by decide)]
      dsimp only
      rw [if_pos rfl]
      have hsum : (List.map (fun it => fvFuel it.2 + 1) rest).sum ≤ f := by
        have : (List.map (fun it => fvFuel it.2 + 1) (it :: rest)).sum =
            (fvFuel it.2 + 1) + (List.map (fun it => fvFuel it.2 + 1) rest).sum := by simp
        omega
      have := ih (fun z hz => hgood z (by simp [hz])) hrestne f hsum
        ['\n'] (by decide) close hclose t
      rw [show '\n' :: (List.intercalate [',', '\n'] (rest.map renderMember) ++
            (close ++ ('}' :: t))) =
          ['\n'] ++ List.intercalate [',', '\n'] (rest.map renderMember) ++
            (close ++ ('}' :: t)) from by simp]
      rw [this]
      rfl

theorem entryMemberLines_eq (e : CompilationEntry) :
    entryMemberLines e = (entryItems e).map renderMember := by
  unfold entryMemberLines entryItems
  by_cases h1 : e.Command = "" <;> by_cases h2 : e.Arguments.isEmpty <;>
    by_cases h3 : e.Output = "" <;>
    simp [h1, h2, h3, renderMember, fvText]

theorem entryItems_cons (e : CompilationEntry) :
    ∃ rest, entryItems e = ("directory", FieldVal.fstr e.Directory) :: rest := by
  unfold entryItems
  refine ⟨(if e.Command = "" then [] else [("command", FieldVal.fstr e.Command)]) ++
    (if e.Arguments.isEmpty then [] else [("arguments", FieldVal.fargs e.Arguments)]) ++
    ([("file", FieldVal.fstr e.File)] ++
      (if e.Output = "" then [] else [("output", FieldVal.fstr e.Output)])), ?_⟩
  simp

theorem entryItems_good (e : CompilationEntry) :
    ∀ it ∈ entryItems e, fvGood it.2 := by
  intro it hit
  unfold entryItems at hit
  rcases List.mem_append.1 hit with hit1 | hitO
  rotate_left
  · by_cases ho : e.Output = ""
    · simp [ho] at hitO
    · simp only [ho, if_false, Bool.false_eq_true, List.mem_singleton] at hitO
      rw [hitO]; trivial
  · rcases List.mem_append.1 hit1 with hit2 | hitF
    rotate_left
    · rw [List.mem_singleton.1 hitF]; trivial
    · rcases List.mem_append.1 hit2 with hit3 | hitA
      rotate_left
      · by_cases ha : e.Arguments.isEmpty
        · simp [ha] at hitA
        · simp only [ha, if_false, Bool.false_eq_true, List.mem_singleton] at hitA
          rw [hitA]
          show e.Arguments ≠ []
          simpa [List.isEmpty_iff] using ha
      · rcases List.mem_append.1 hit3 with hitD | hitC
        · rw [List.mem_singleton.1 hitD]; trivial
        · by_cases hc : e.Command = ""
          · simp [hc] at hitC
          · simp only [hc, if_false, Bool.false_eq_true, List.mem_singleton] at hitC
            rw [hitC]; trivial

theorem jParseVal_entryJson (e : CompilationEntry) (f : Nat)
    (hf : entryFuel e ≤ f + 1) (pre : List Char)
    (hpre : ∀ c ∈ pre, isJsonWs c = true) (t : List Char) :
    jParseVal (f + 1) (pre ++ entryJson e ++ t) =
      some (.jobj (entryMembersJ e), t) := by
  rw [jParseVal]
  rw [show pre ++ entryJson e ++ t =
      (pre ++ ind 1) ++ '{' :: ('\n' ::
        (List.intercalate [',', '\n'] ((entryItems e).map renderMember) ++
          (('\n' :: ind 1) ++ ('}' :: t)))) from by
    rw [entryJson, entryMemberLines_eq]
    simp]
  rw [jSkipWs_append_ws (pre ++ ind 1) (by
    intro c hc
    rcases List.mem_append.1 hc with h | h
    · exact hpre c h
    · exact ind_ws 1 c h)]
  rw [jSkipWs_cons_not _ (by decide)]
  dsimp only
  rw [if_neg (by decide), if_neg (by decide), if_pos rfl]
  obtain ⟨rest, hitems⟩ := entryItems_cons e
  obtain ⟨restR, hR, _⟩ : ∃ R,
      List.intercalate [',', '\n'] ((entryItems e).map renderMember) =
        renderMember ("directory", FieldVal.fstr e.Directory) ++ R ∧ True := by
    rw [hitems]
    cases rest with
    | nil => exact ⟨[], by simp [List.intercalate], trivial⟩
    | cons y rest' =>
      refine ⟨',' :: '\n' ::
        List.intercalate [',', '\n'] ((y :: rest').map renderMember), ?_, trivial⟩
      rw [List.map_cons, List.map_cons, interc_cons₂]
      simp
  have hskip : jSkipWs ('\n' ::
      (List.intercalate [',', '\n'] ((entryItems e).map renderMember) ++
        (('\n' :: ind 1) ++ ('}' :: t)))) =
      '"' :: (("directory".toList.flatMap goEscChar) ++
        ('"' :: (':' :: ' ' :: (fvText (FieldVal.fstr e.Directory) ++
          (restR ++ (('\n' :: ind 1) ++ ('}' :: t))))))) := by
    rw [hR]
    rw [show '\n' :: ((renderMember ("directory", FieldVal.fstr e.Directory) ++ restR) ++
          (('\n' :: ind 1) ++ ('}' :: t))) =
        ('\n' :: ind 2) ++ ('"' :: (("directory".toList.flatMap goEscChar) ++
          ('"' :: (':' :: ' ' :: (fvText (FieldVal.fstr e.Directory) ++
            (restR ++ (('\n' :: ind 1) ++ ('}' :: t)))))))) from by
      rw [renderMember, memberJson, jStr]
      simp]
    rw [jSkipWs_append_ws ('\n' :: ind 2) (by
      intro c hc
      rcases List.mem_cons.1 hc with h | h
      · subst h; rfl
      · exact ind_ws 2 c h)]
    rw [jSkipWs_cons_not _ (by decide)]
  rw [hskip]
  dsimp only
  rw [if_neg (by decide)]
  have hsum : (List.map (fun it => fvFuel it.2 + 1) (entryItems e)).sum ≤ f := by
    have : entryFuel e = (List.map (fun it => fvFuel it.2 + 1) (entryItems e)).sum + 1 + 1 := by
      rw [entryFuel, membersFuel]
    omega
  have := jParseMembers_render (entryItems e) (entryItems_good e)
    (by rw [hitems]; simp) f hsum ['\n'] (by decide) ('\n' :: ind 1) (by
      intro c hc
      rcases List.mem_cons.1 hc with h | h
      · subst h; rfl
      · exact ind_ws 1 c h) t
  rw [show (['\n'] : List Char) ++ List.intercalate [',', '\n']
        ((entryItems e).map renderMember) ++ (('\n' :: ind 1) ++ ('}' :: t)) =
      '\n' :: (List.intercalate [',', '\n'] ((entryItems e).map renderMember) ++
        (('\n' :: ind 1) ++ ('}' :: t))) from by simp] at this
  rw [this]
  rfl

theorem jParseVal_dbJson (db : List CompilationEntry) (hne : db ≠ []) (f : Nat)
    (hf : (db.map (fun e => entryFuel e + 1)).sum ≤ f) (t : List Char) :
    jParseVal (f + 1) (marshalIndentDB db ++ t) =
      some (.jarr (db.map (fun e => .jobj (entryMembersJ e))), t) := by
  obtain ⟨e0, db', rfl⟩ : ∃ e0 db', db = e0 :: db' := by
    cases db with
    | nil => exact absurd rfl hne
    | cons e0 db' => exact ⟨e0, db', rfl⟩
  rw [jParseVal]
  rw [show marshalIndentDB (e0 :: db') ++ t =
      '[' :: ('\n' :: (List.intercalate [',', '\n'] ((e0 :: db').map entryJson) ++
        (['\n'] ++ (']' :: t)))) from by
    rw [show marshalIndentDB (e0 :: db') =
        '[' :: '\n' :: (List.intercalate [',', '\n'] ((e0 :: db').map entryJson) ++
          '\n' :: [']']) from rfl]
    simp]
  rw [jSkipWs_cons_not _ (by decide)]
  dsimp only
  rw [if_neg (by decide), if_pos rfl]
  obtain ⟨restR, hR⟩ : ∃ R,
      List.intercalate [',', '\n'] ((e0 :: db').map entryJson) = entryJson e0 ++ R := by
    cases db' with
    | nil => exact ⟨[], by simp [List.intercalate]⟩
    | cons y rest' =>
      refine ⟨',' :: '\n' ::
        List.intercalate [',', '\n'] ((y :: rest').map entryJson), ?_⟩
      rw [List.map_cons, List.map_cons, interc_cons₂]
      simp
  have hskip : jSkipWs ('\n' :: (List.intercalate [',', '\n']
        ((e0 :: db').map entryJson) ++ (['\n'] ++ (']' :: t)))) =
      '{' :: ('\n' :: (List.intercalate [',', '\n']
        ((entryItems e0).map renderMember) ++ (('\n' :: ind 1) ++
          ('}' :: (restR ++ (['\n'] ++ (']' :: t))))))) := by
    rw [hR]
    rw [show '\n' :: ((entryJson e0 ++ restR) ++ (['\n'] ++ (']' :: t))) =
        ('\n' :: ind 1) ++ ('{' :: ('\n' :: (List.intercalate [',', '\n']
          ((entryItems e0).map renderMember) ++ (('\n' :: ind 1) ++
            ('}' :: (restR ++ (['\n'] ++ (']' :: t)))))))) from by
      rw [entryJson, entryMemberLines_eq]
      simp]
    rw [jSkipWs_append_ws ('\n' :: ind 1) (by
      intro c hc
      rcases List.mem_cons.1 hc with h | h
      · subst h; rfl
      · exact ind_ws 1 c h)]
    rw [jSkipWs_cons_not _ (by decide)]
  rw [hskip]
  dsimp only
  rw [if_neg (by decide)]
  have := jParseElems_render entryJson (fun e => .jobj (entryMembersJ e)) entryFuel
    (e0 :: db')
    (fun e _ fuel hfe pre2 hpre2 t2 => by
      have hfe2 : entryFuel e ≤ fuel := hfe
      have hpos : 1 ≤ fuel := by
        have : 2 ≤ entryFuel e := by
          rw [entryFuel, membersFuel]
          omega
        omega
      obtain ⟨g, rfl⟩ : ∃ g, fuel = g + 1 := ⟨fuel - 1, by omega⟩
      exact jParseVal_entryJson e g (by omega) pre2 hpre2 t2)
    (List.cons_ne_nil e0 db') f (by simpa using hf)
    ['\n'] (by decide) ['\n'] (by decide) t
  rw [show '\n' :: (List.intercalate [',', '\n'] ((e0 :: db').map entryJson) ++
        (['\n'] ++ (']' :: t))) =
      ['\n'] ++ List.intercalate [',', '\n'] ((e0 :: db').map entryJson) ++
        (['\n'] ++ (']' :: t)) from by simp]
  rw [this]
  rfl

theorem interc_length_ge (s : List Char) : ∀ (l : List (List Char)),
    (l.map List.length).sum ≤ (List.intercalate s l).length := by
  intro l
  induction l with
  | nil => simp
  | cons x rest ih =>
    cases rest with
    | nil => simp [List.intercalate]
    | cons y rest' =>
      rw [interc_cons₂]
      simp only [List.map_cons, List.sum_cons, List.length_append] at ih ⊢
      omega

theorem jStr_length_ge (s : String) : 2 ≤ (jStr s).length := by
  rw [jStr]
  simp

theorem renderMember_length_ge (it : String × FieldVal) :
    fvFuel it.2 + 1 ≤ (renderMember it).length := by
  obtain ⟨k, v⟩ := it
  rw [renderMember, memberJson]
  cases v with
  | fstr s =>
    have h1 := jStr_length_ge k
    have h2 := jStr_length_ge s
    simp only [fvText, fvFuel]
    simp only [List.length_append, List.length_cons]
    have : (ind 2).length = 4 := by decide
    omega
  | fargs args =>
    have h1 := jStr_length_ge k
    simp only [fvText, fvFuel, argsJson]
    have helems : 8 * args.length ≤
        ((args.map (fun a => ind 3 ++ jStr a)).map List.length).sum := by
      induction args with
      | nil => simp
      | cons a rest ih =>
        have := jStr_length_ge a
        simp only [List.map_cons, List.sum_cons, List.length_append, List.length_cons] at ih ⊢
        have : (ind 3).length = 6 := by decide
        omega
    have hinter := interc_length_ge [',', '\n'] (args.map (fun a => ind 3 ++ jStr a))
    simp only [List.length_append, List.length_cons]
    have : (ind 2).length = 4 := by decide
    have : (ind 3).length = 6 := by decide
    omega

theorem entryJson_length_ge (e : CompilationEntry) :
    entryFuel e + 1 ≤ (entryJson e).length := by
  rw [entryJson, entryMemberLines_eq, entryFuel, membersFuel]
  have hmem : ((entryItems e).map (fun it => fvFuel it.2 + 1)).sum ≤
      (((entryItems e).map renderMember).map List.length).sum := by
    rw [List.map_map]
    exact List.sum_le_sum (fun it hit => renderMember_length_ge it)
  have hinter := interc_length_ge [',', '\n'] ((entryItems e).map renderMember)
  simp only [List.length_append, List.length_cons]
  have : (ind 1).length = 2 := by decide
  omega

theorem dbFuel_le_length (db : List CompilationEntry) (hne : db ≠ []) :
    dbFuel db ≤ (marshalIndentDB db).length + 1 := by
  obtain ⟨e0, db', rfl⟩ : ∃ e0 db', db = e0 :: db' := by
    cases db with
    | nil => exact absurd rfl hne
    | cons e0 db' => exact ⟨e0, db', rfl⟩
  rw [dbFuel]
  rw [show marshalIndentDB (e0 :: db') =
      '[' :: '\n' :: (List.intercalate [',', '\n'] ((e0 :: db').map entryJson) ++
        '\n' :: [']']) from rfl]
  have hmem : ((e0 :: db').map (fun e => entryFuel e + 1)).sum ≤
      (((e0 :: db').map entryJson).map List.length).sum := by
    rw [List.map_map]
    exact List.sum_le_sum (fun e he => entryJson_length_ge e)
  have hinter := interc_length_ge [',', '\n'] ((e0 :: db').map entryJson)
  simp only [List.length_cons, List.length_append]
  omega

theorem mapM_jAsString_jstr (args : List String) :
    (args.map JVal.jstr).mapM jAsString = some args := by
  induction args with
  | nil => rfl
  | cons a rest ih =>
    rw [List.map_cons, List.mapM_cons]
    rw [show jAsString (JVal.jstr a) = some a from rfl]
    rw [ih]
    rfl

theorem applyEntryField_directory (e : CompilationEntry) (v : JVal) :
    applyEntryField e ("directory", v) =
      (jAsString v).map fun s => { e with Directory := s } := by
  unfold applyEntryField
  dsimp only
  rw [if_pos rfl]

theorem applyEntryField_command (e : CompilationEntry) (v : JVal) :
    applyEntryField e ("command", v) =
      (jAsString v).map fun s => { e with Command := s } := by
  unfold applyEntryField
  dsimp only
  rw [if_neg (by decide), if_pos rfl]

theorem applyEntryField_arguments (e : CompilationEntry) (v : JVal) :
    applyEntryField e ("arguments", v) =
      (jAsStringList v).map fun a => { e with Arguments := a } := by
  unfold applyEntryField
  dsimp only
  rw [if_neg (by decide), if_neg (by decide), if_pos rfl]

theorem applyEntryField_file (e : CompilationEntry) (v : JVal) :
    applyEntryField e ("file", v) =
      (jAsString v).map fun s => { e with File := s } := by
  unfold applyEntryField
  dsimp only
  rw [if_neg (by decide), if_neg (by decide), if_neg (by decide), if_pos rfl]

theorem applyEntryField_output (e : CompilationEntry) (v : JVal) :
    applyEntryField e ("output", v) =
      (jAsString v).map fun s => { e with Output := s } := by
  unfold applyEntryField
  dsimp only
  rw [if_neg (by decide), if_neg (by decide), if_neg (by decide), if_neg (by decide),
    if_pos rfl]

theorem jAsStringList_jstr (args : List String) :
    jAsStringList (.jarr (args.map JVal.jstr)) = some args := by
  rw [show jAsStringList (.jarr (args.map JVal.jstr)) =
      (args.map JVal.jstr).mapM jAsString from rfl]
  exact mapM_jAsString_jstr args

theorem decodeEntry_entryMembersJ (e : CompilationEntry) :
    decodeEntry (.jobj (entryMembersJ e)) = some e := by
  obtain ⟨d, c, a, fl, o⟩ := e
  rw [show decodeEntry (.jobj (entryMembersJ ⟨d, c, a, fl, o⟩)) =
      (entryMembersJ ⟨d, c, a, fl, o⟩).foldlM applyEntryField {} from rfl]
  rw [entryMembersJ, entryItems]
  by_cases h1 : c = "" <;> by_cases h2 : a.isEmpty <;> by_cases h3 : o = "" <;>
    · simp only [h1, h2, h3, if_true, if_false]
      try subst h1
      try subst h3
      try rw [show a = [] from by simpa [List.isEmpty_iff] using h2]
      simp [List.foldlM_cons, List.foldlM_nil, applyEntryField_directory,
        applyEntryField_command, applyEntryField_arguments, applyEntryField_file,
        applyEntryField_output, jAsString, jAsStringList_jstr, fvJVal]

theorem mapM_decodeEntry (db : List CompilationEntry) :
    (db.map (fun e => JVal.jobj (entryMembersJ e))).mapM decodeEntry = some db := by
  induction db with
  | nil => rfl
  | cons e rest ih =>
    rw [List.map_cons, List.mapM_cons, decodeEntry_entryMembersJ, ih]
    rfl

/-- C8: serializing a non-empty compilation database with the embedded
    `MarshalIndent` and re-parsing the result with the embedded
    `json.Unmarshal` yields exactly the original entries, in order, equal in
    every field (directory, command, arguments, file, output). -/
theorem c8_roundtrip (compileDB : List CompilationEntry) (hne : compileDB ≠ []) :
    unmarshalCompilationDatabase (String.mk (marshalIndentDB compileDB)) =
      some compileDB := by
  unfold unmarshalCompilationDatabase jParseDoc
  dsimp only
  rw [show (String.mk (marshalIndentDB compileDB)).toList = marshalIndentDB compileDB
    from rfl]
  have hfuel : (compileDB.map (fun e => entryFuel e + 1)).sum ≤
      (marshalIndentDB compileDB).length := by
    have := dbFuel_le_length compileDB hne
    rw [dbFuel] at this
    omega
  have hparse := jParseVal_dbJson compileDB hne (marshalIndentDB compileDB).length
    hfuel []
  rw [List.append_nil] at hparse
  rw [hparse]
  simp only [Option.bind_eq_bind, Option.some_bind]
  rw [if_pos (show (jSkipWs []).isEmpty = true from by decide)]
  simp only [Option.bind_eq_bind, Option.some_bind]
  exact mapM_decodeEntry compileDB

/-- Witness for C8 at a concrete one-entry database. -/
theorem c8_witness :
    ([⟨"/p", "", ["gcc", "-c", "a.c"], "/p/a.c", "/p/a.o"⟩] :
      List CompilationEntry) ≠ [] ∧
    unmarshalCompilationDatabase (String.mk (marshalIndentDB
      [⟨"/p", "", ["gcc", "-c", "a.c"], "/p/a.c", "/p/a.o"⟩])) =
      some [⟨"/p", "", ["gcc", "-c", "a.c"], "/p/a.c", "/p/a.o"⟩] :=
  ⟨by decide,
   c8_roundtrip [⟨"/p", "", ["gcc", "-c", "a.c"], "/p/a.c", "/p/a.o"⟩] (by decide)⟩

end Yacd
